import Mathlib

/-!
Verification development for the `verify` content-addressed task-verification
engine.  The Rust sources are embedded shallowly: pure functions become Lean
functions, the mutable lock cache becomes explicit state passing, external
collaborators (BLAKE3, regex, the file system, git) are modelled as explicit
parameters or injective encodings, exactly as the specification declares them
out of scope.

Module map (Rust file → Lean namespace):
  src/config.rs   → Verify.Config
  src/cache.rs    → Verify.Cache
  src/hasher.rs   → Verify.Hasher
  src/metadata.rs → Verify.Metadata
  src/trailer.rs  → Verify.Trailer
  src/runner.rs   → Verify.Runner
The repository snapshot contains two revisions of the check-definition type:
`config.rs` declares `command: String` (an entry without a command does not
parse), while `runner.rs` and `trailer.rs` use `command: Option<String>`
(aggregate checks).  Both are embedded, each in the namespace of the file that
uses it.
-/

namespace Verify

/-- Lexicographic `≤` on character lists; this is the order Rust uses when
sorting `Vec<String>` (byte order on UTF-8 coincides with code-point order). -/
def lexLe : List Char → List Char → Bool
  | [], _ => true
  | _ :: _, [] => false
  | a :: as, b :: bs => if a < b then true else if b < a then false else lexLe as bs

/-- Strict lexicographic `<` on character lists. -/
def lexLt : List Char → List Char → Bool
  | [], [] => false
  | [], _ :: _ => true
  | _ :: _, [] => false
  | a :: as, b :: bs => if a < b then true else if b < a then false else lexLt as bs

/-- String comparison used for Rust's `Vec<String>::sort` and `BTreeMap` key order. -/
def strLe (a b : String) : Bool := lexLe a.data b.data

/-- Strict string comparison used for `BTreeMap` key order. -/
def strLt (a b : String) : Bool := lexLt a.data b.data

/-- Rust's `Vec<String>::sort()`: a stable sort under the byte-lexicographic
order (insertion sort here; any stable sort agrees on strings). -/
def sortStrings (l : List String) : List String :=
  l.insertionSort (fun a b => strLe a b = true)

/-- Association-list lookup modelling `BTreeMap::get` / `HashMap::get`. -/
def alookup {α : Type} (k : String) : List (String × α) → Option α
  | [] => none
  | (k', v) :: rest => if k' = k then some v else alookup k rest

/-- `BTreeMap::insert`: keeps the list sorted by key and overwrites an
existing binding. -/
def btInsert {α : Type} (k : String) (v : α) : List (String × α) → List (String × α)
  | [] => [(k, v)]
  | (k', v') :: rest =>
    if strLt k k' then (k, v) :: (k', v') :: rest
    else if k = k' then (k, v) :: rest
    else (k', v') :: btInsert k v rest

/-- `str::split(sep)`: splits at every separator, keeping empty pieces
(`"".split(sep)` yields one empty piece). -/
def splitChar (sep : Char) : List Char → List (List Char)
  | [] => [[]]
  | c :: rest =>
    match splitChar sep rest with
    | [] => if c = sep then [[], []] else [[c]]
    | cur :: parts => if c = sep then [] :: cur :: parts else (c :: cur) :: parts

/-- `str::split_once(sep)`: splits at the first separator, `none` when absent. -/
def splitOnceChar (sep : Char) : List Char → Option (List Char × List Char)
  | [] => none
  | c :: rest =>
    if c = sep then some ([], rest)
    else (splitOnceChar sep rest).map (fun p => (c :: p.1, p.2))

/-- `str::trim`: removes leading and trailing whitespace. -/
def trimChars (l : List Char) : List Char :=
  ((l.dropWhile Char.isWhitespace).reverse.dropWhile Char.isWhitespace).reverse

/-- `Vec<String>::join(sep)` / `str` intercalation. -/
def joinSep (sep : String) : List String → String
  | [] => ""
  | [x] => x
  | x :: xs => x ++ sep ++ joinSep sep xs

/-- Decimal digit character. -/
def digitChar (d : Nat) : Char := Char.ofNat (48 + d)

/-- Decimal digit list of a natural number (most significant first). -/
def natDigits (n : Nat) : List Char :=
  if _h : n < 10 then [digitChar n]
  else natDigits (n / 10) ++ [digitChar (n % 10)]
decreasing_by
  exact Nat.div_lt_self (Nat.pos_of_ne_zero (by omega)) (by omega)

/-- `u64::to_string()` (and `$i` group indices): decimal rendering. -/
def natDecimal (n : Nat) : String := ⟨natDigits n⟩

/-- Rust byte slice `&s[..k]` on a UTF-8 string, as characters: returns the
prefix of `cs` occupying exactly `k` bytes, or `none` (a panic) when `k` is
not a character boundary. -/
def sliceBytes : List Char → Nat → Option (List Char)
  | _, 0 => some []
  | [], _ + 1 => none
  | c :: rest, k + 1 =>
    if c.utf8Size ≤ k + 1 then (sliceBytes rest (k + 1 - c.utf8Size)).map (c :: ·)
    else none

/-- The external BLAKE3 digest (out of scope per the spec) is modelled as an
injective function of the byte stream fed to the hasher.  All theorems about
hashes rely only on injectivity and determinism of the digest, never on its
shape, so the model tags the input rather than scrambling it. -/
def blake3String (s : String) : String := "b3:" ++ s

end Verify

namespace Verify.Metadata

/-- `MetadataValue` (metadata.rs).  The `Float` payload is modelled by the
source literal that parsed to it: floating-point arithmetic is out of scope
and no claim inspects the numeric value. -/
inductive MetadataValue : Type where
  | Integer : Int → MetadataValue
  | Float : String → MetadataValue
  | Str : String → MetadataValue
deriving DecidableEq, Repr

/-- Strict decimal integer with optional sign, as accepted by
`str::parse::<i64>` before the range check. -/
def parseIntText (l : List Char) : Option Int :=
  let core : List Char → Option Nat := fun ds =>
    if ds.isEmpty then none
    else if ds.all (fun c => '0' ≤ c ∧ c ≤ '9') then
      some (ds.foldl (fun a c => 10 * a + (c.toNat - 48)) 0)
    else none
  match l with
  | '-' :: rest => (core rest).map (fun n => -(n : Int))
  | '+' :: rest => (core rest).map (fun n => (n : Int))
  | _ => (core l).map (fun n => (n : Int))

/-- `str::parse::<i64>`: decimal with i64 range check (overflow is an error,
which in `parse_value` falls through to the float branch). -/
def parseI64 (s : String) : Option Int :=
  (parseIntText s.data).bind (fun i =>
    if -(2 ^ 63) ≤ i ∧ i < 2 ^ 63 then some i else none)

/-- Modelled acceptance test for `str::parse::<f64>` (external numeric
parsing): an optional sign followed by digits with at most one dot and at
least one digit.  No claim depends on the exact acceptance set. -/
def looksLikeFloat (s : String) : Bool :=
  let body := match s.data with
    | '-' :: rest => rest
    | '+' :: rest => rest
    | l => l
  body.any (fun c => '0' ≤ c ∧ c ≤ '9') &&
    body.all (fun c => ('0' ≤ c ∧ c ≤ '9') ∨ c = '.') &&
    (body.filter (· = '.')).length ≤ 1

/-- `parse_value` (metadata.rs): integer, else float, else string. -/
def parse_value (s : String) : MetadataValue :=
  match parseI64 s with
  | some i => MetadataValue.Integer i
  | none => if looksLikeFloat s then MetadataValue.Float s else MetadataValue.Str s

/-- The capture groups of one regex match: group `i` is `none` when it did not
participate.  Group 0 is the whole match. -/
structure Captures : Type where
  groups : List (Option String)

/-- `Captures::get(i)` (the external regex crate's accessor). -/
def Captures.get (c : Captures) (i : Nat) : Option String := (c.groups.getD i none).bind some

/-- A compiled regex, modelled by the list of matches (in order of position)
it produces on a given haystack.  The regex engine itself is external. -/
structure CompiledRegex : Type where
  capturesAll : String → List Captures

/-- A regex engine: compilation either fails or yields a compiled regex.
`extract_metadata` is proved for every engine. -/
def RegexEngine : Type := String → Option CompiledRegex

end Verify.Metadata

namespace Verify.Config

/-- `MetadataPattern` (config.rs): either `[pattern, replacement]` or a plain
capture-group regex, in the source's variant order. -/
inductive MetadataPattern : Type where
  | WithReplacement : String → String → MetadataPattern
  | Simple : String → MetadataPattern
deriving DecidableEq, Repr

/-- `Verification` (config.rs revision): `command` is a required field. -/
structure Verification : Type where
  name : String
  command : String
  cache_paths : List String
  depends_on : List String
  timeout_secs : Option Nat
  metadata : List (String × MetadataPattern)
  per_file : Bool
deriving DecidableEq, Repr

/-- `Subproject` (config.rs): a name plus a relative path. -/
structure Subproject : Type where
  name : String
  path : String
deriving DecidableEq, Repr

/-- `VerificationItem` (config.rs): untagged union of the two entry kinds. -/
inductive VerificationItem : Type where
  | subproject : Subproject → VerificationItem
  | verification : Verification → VerificationItem
deriving DecidableEq, Repr

/-- One top-level YAML list entry as typed fields: `none` means the key is
absent.  YAML deserialization itself is external; this captures which keys an
entry carries. -/
structure RawEntry : Type where
  name : Option String
  path : Option String
  command : Option String
  cache_paths : Option (List String)
  depends_on : Option (List String)
  timeout_secs : Option Nat
  metadata : Option (List (String × MetadataPattern))
  per_file : Option Bool
deriving Repr

/-- Serde's untagged-enum deserialization of one entry, following config.rs:
`Subproject` (declared first) is tried first and needs `name` and `path`,
ignoring extra keys; otherwise `Verification` needs `name` and `command`, all
remaining fields defaulting; otherwise the entry fails to parse. -/
def parse_item (e : RawEntry) : Option VerificationItem :=
  match e.name, e.path with
  | some n, some p => some (VerificationItem.subproject ⟨n, p⟩)
  | _, _ =>
    match e.name, e.command with
    | some n, some c =>
      some (VerificationItem.verification
        { name := n
          command := c
          cache_paths := e.cache_paths.getD []
          depends_on := e.depends_on.getD []
          timeout_secs := e.timeout_secs
          metadata := e.metadata.getD []
          per_file := e.per_file.getD false })
    | _, _ => none

/-- The deserialization stage of `Config::load`: every entry of the
`verifications` list must parse. -/
def parse_config (entries : List RawEntry) : Option (List VerificationItem) :=
  entries.mapM parse_item

/-- Rendering of one metadata pattern inside `config_hash` (config.rs):
`pattern` or `pattern | replacement`. -/
def renderPattern : MetadataPattern → String
  | MetadataPattern.Simple pat => pat
  | MetadataPattern.WithReplacement pat repl => pat ++ "|" ++ repl

/-- The exact byte stream `Verification::config_hash` (config.rs) feeds to the
BLAKE3 hasher: command, sorted cache paths, timeout, per-file flag and sorted
metadata patterns, each update call concatenated. -/
def configTranscript (v : Verification) : String :=
  let paths := (sortStrings v.cache_paths).foldl (fun acc p => acc ++ p ++ ",") ""
  let timeout := match v.timeout_secs with
    | some t => natDecimal t
    | none => ""
  let meta := (sortStrings (v.metadata.map Prod.fst)).foldl
    (fun acc k =>
      acc ++ k ++ "=" ++ renderPattern ((alookup k v.metadata).getD (MetadataPattern.Simple "")) ++ ",")
    ""
  "command:" ++ v.command ++ "\n" ++
  "cache_paths:" ++ paths ++ "\n" ++
  "timeout:" ++ timeout ++ "\n" ++
  "per_file:" ++ (if v.per_file then "true" else "false") ++ "\n" ++
  "metadata:" ++ meta

/-- `Verification::config_hash` (config.rs): the digest of the transcript. -/
def Verification.config_hash (v : Verification) : String :=
  blake3String (configTranscript v)

end Verify.Config

namespace Verify.Metadata

/-- `$1, $2, …` substitution in a replacement template (metadata.rs): every
participating capture group `i ≥ 1` has `$i` replaced by its text, in group
order (all occurrences, as Rust's `str::replace` does). -/
def expandRepl (caps : Captures) (repl : String) : String :=
  (caps.groups.enum.drop 1).foldl
    (fun acc ic =>
      match ic.2 with
      | some m => acc.replace ("$" ++ natDecimal ic.1) m
      | none => acc)
    repl

/-- `apply_pattern` (metadata.rs): compile the regex (failure → `none`), take
the last match (no match → `none`); for a simple pattern return capture group
1 (absent → `none`), for a replacement pattern expand the template. -/
def apply_pattern (compile : RegexEngine) (output : String) :
    Verify.Config.MetadataPattern → Option String
  | Verify.Config.MetadataPattern.Simple pat =>
    (compile pat).bind fun re =>
      ((re.capturesAll output).getLast?).bind fun caps => caps.get 1
  | Verify.Config.MetadataPattern.WithReplacement pat repl =>
    (compile pat).bind fun re =>
      ((re.capturesAll output).getLast?).map fun caps => expandRepl caps repl

/-- `extract_metadata` (metadata.rs): apply every pattern, inserting parsed
values for the keys whose pattern produced one; keys whose pattern fails at
any stage are silently absent. -/
def extract_metadata (compile : RegexEngine) (output : String)
    (patterns : List (String × Verify.Config.MetadataPattern)) :
    List (String × MetadataValue) :=
  patterns.foldl
    (fun result kp =>
      match apply_pattern compile output kp.2 with
      | some value => Verify.btInsert kp.1 (parse_value value) result
      | none => result)
    []

/-- The regex string a pattern compiles (both variants carry one). -/
def patRegex : Verify.Config.MetadataPattern → String
  | Verify.Config.MetadataPattern.Simple pat => pat
  | Verify.Config.MetadataPattern.WithReplacement pat _ => pat

end Verify.Metadata

namespace Verify.Hasher

/-- `HashResult` (hasher.rs): combined hash plus per-file hashes keyed by
relative path (a `BTreeMap`, modelled as a sorted association list). -/
structure HashResult : Type where
  combined_hash : String
  file_hashes : List (String × String)
deriving DecidableEq, Repr

/-- `find_changed_files` (hasher.rs): per-path deltas with `"+ "`, `"- "`,
`"M "` prefixes, sorted. -/
def find_changed_files (old_hashes new_hashes : List (String × String)) : List String :=
  let modAdd := new_hashes.filterMap (fun pn =>
    match alookup pn.1 old_hashes with
    | none => some ("+ " ++ pn.1)
    | some old_hash => if old_hash ≠ pn.2 then some ("M " ++ pn.1) else none)
  let deleted := ((old_hashes.map Prod.fst).filter
    (fun p => (alookup p new_hashes).isNone)).map (fun p => "- " ++ p)
  sortStrings (modAdd ++ deleted)

end Verify.Hasher

namespace Verify.Cache

open Verify.Metadata

/-- `CheckCache` (cache.rs): one lock-store entry. -/
structure CheckCache : Type where
  config_hash : Option String
  content_hash : Option String
  file_hashes : List (String × String)
  metadata : List (String × MetadataValue)
deriving DecidableEq, Repr

/-- `UnverifiedReason` (cache.rs). -/
inductive UnverifiedReason : Type where
  | FilesChanged : List String → UnverifiedReason
  | DependencyUnverified : String → UnverifiedReason
  | ConfigChanged : UnverifiedReason
  | NeverRun : UnverifiedReason
deriving DecidableEq, Repr

/-- `VerificationStatus` (cache.rs). -/
inductive VerificationStatus : Type where
  | Verified : VerificationStatus
  | Unverified : UnverifiedReason → VerificationStatus
  | Untracked : VerificationStatus
deriving DecidableEq, Repr

/-- `CacheState` (cache.rs): the in-memory lock file, a `BTreeMap` of
entries. -/
structure CacheState : Type where
  version : Nat
  checks : List (String × CheckCache)
deriving DecidableEq, Repr

/-- `CacheState::get`. -/
def CacheState.get (c : CacheState) (check_name : String) : Option CheckCache :=
  alookup check_name c.checks

/-- `CacheState::check_staleness` (cache.rs): missing entry or missing stored
config hash → `NeverRun`; differing config hash → `ConfigChanged`; missing
content hash → `NeverRun`; differing content hash → `FilesChanged []`;
otherwise `Verified`. -/
def CacheState.check_staleness (c : CacheState) (check_name : String)
    (current_content_hash current_config_hash : String) : VerificationStatus :=
  match alookup check_name c.checks with
  | none => VerificationStatus.Unverified UnverifiedReason.NeverRun
  | some cache =>
    match cache.config_hash with
    | none => VerificationStatus.Unverified UnverifiedReason.NeverRun
    | some stored_config_hash =>
      if stored_config_hash ≠ current_config_hash then
        VerificationStatus.Unverified UnverifiedReason.ConfigChanged
      else
        match cache.content_hash with
        | none => VerificationStatus.Unverified UnverifiedReason.NeverRun
        | some stored_hash =>
          if stored_hash = current_content_hash then VerificationStatus.Verified
          else VerificationStatus.Unverified (UnverifiedReason.FilesChanged [])

/-- `CacheState::update` (cache.rs): writes one entry; on failure the content
hash and metadata are cleared, the config hash is retained, and per-file
partial progress is kept. -/
def CacheState.update (c : CacheState) (check_name : String) (success : Bool)
    (config_hash : String) (content_hash : Option String)
    (file_hashes : List (String × String)) (metadata : List (String × MetadataValue))
    (per_file : Bool) : CacheState :=
  let cache :=
    if success then
      { config_hash := some config_hash
        content_hash := content_hash
        file_hashes := if per_file then file_hashes else []
        metadata := metadata : CheckCache }
    else
      { config_hash := some config_hash
        content_hash := none
        file_hashes :=
          if per_file then ((alookup check_name c.checks).map CheckCache.file_hashes).getD []
          else []
        metadata := [] : CheckCache }
  { c with checks := btInsert check_name cache c.checks }

end Verify.Cache

namespace Verify.Trailer

/-- `compute_combined_hash` (trailer.rs): BLAKE3 of
`config_hash || ":" || content_hash`. -/
def compute_combined_hash (config_hash content_hash : String) : String :=
  blake3String (config_hash ++ ":" ++ content_hash)

/-- `truncate_hash` (trailer.rs): the Rust byte slice
`&hash[..8.min(hash.len())]`; `none` models the slice panic when the cut
falls inside a multi-byte character. -/
def truncate_hash (hash : String) : Option String :=
  (sliceBytes hash.data (min 8 hash.utf8ByteSize)).map (fun l => ⟨l⟩)

/-- `parse_trailer_value` (trailer.rs): split on commas, trim each pair,
split at the first colon, collect into a `BTreeMap` (pairs without a colon
are skipped). -/
def parse_trailer_value (value : String) : List (String × String) :=
  (splitChar ',' value.data).foldl
    (fun m part =>
      match splitOnceChar ':' (trimChars part) with
      | some nh => btInsert ⟨nh.1⟩ ⟨nh.2⟩ m
      | none => m)
    []

/-- `format_trailer_value` (trailer.rs): `name:truncated_hash` pairs joined
by commas, hashes truncated to 8 bytes; `none` models a truncation panic. -/
def format_trailer_value (hashes : List (String × String)) : Option String :=
  (hashes.mapM (fun nh => (truncate_hash nh.2).map (fun t => nh.1 ++ ":" ++ t))).map
    (joinSep ",")

end Verify.Trailer

namespace Verify.Runner

open Verify.Config (MetadataPattern Subproject)
open Verify.Cache
open Verify.Hasher

/-- `Verification` as used by runner.rs and trailer.rs: `command` is
`Option<String>` and `none` marks an aggregate check. -/
structure Verification : Type where
  name : String
  command : Option String
  cache_paths : List String
  depends_on : List String
  timeout_secs : Option Nat
  metadata : List (String × MetadataPattern)
  per_file : Bool
deriving DecidableEq, Repr

/-- Modelled from the spec: the `config_hash` method of the optional-command
revision of `Verification` is not in the sources (only config.rs's
required-command revision is).  Per spec §3 it is a digest over
`{command, sorted cache_paths, timeout, per_file flag, sorted metadata
patterns}`; an absent command hashes like an empty one.  The claims that use
it treat the value as opaque. -/
def Verification.config_hash (v : Verification) : String :=
  Verify.Config.Verification.config_hash
    { name := v.name
      command := v.command.getD ""
      cache_paths := v.cache_paths
      depends_on := v.depends_on
      timeout_secs := v.timeout_secs
      metadata := v.metadata
      per_file := v.per_file }

/-- `VerificationItem` in the optional-command revision. -/
inductive Item : Type where
  | subproject : Subproject → Item
  | verification : Verification → Item
deriving DecidableEq, Repr

/-- `Config` in the optional-command revision. -/
structure Config : Type where
  verifications : List Item
deriving DecidableEq, Repr

/-- `Config::get`: the first verification with the given name (`none` for
subprojects and unknown names). -/
def Config.get (c : Config) (n : String) : Option Verification :=
  c.verifications.findSome? (fun item =>
    match item with
    | Item.verification v => if v.name = n then some v else none
    | Item.subproject _ => none)

/-- `compute_status` (runner.rs): the decision engine's rule cascade.  A
dependency missing from the staleness map counts as stale. -/
def compute_status (check : Verification) (hash_result : HashResult)
    (cache : CacheState) (dep_staleness : List (String × Bool)) : VerificationStatus :=
  match check.depends_on.find? (fun dep => (alookup dep dep_staleness).getD true) with
  | some dep => VerificationStatus.Unverified (UnverifiedReason.DependencyUnverified dep)
  | none =>
    if check.command.isNone then VerificationStatus.Verified
    else if check.cache_paths.isEmpty then VerificationStatus.Untracked
    else
      let config_hash := check.config_hash
      let status := cache.check_staleness check.name hash_result.combined_hash config_hash
      match status with
      | VerificationStatus.Unverified (UnverifiedReason.FilesChanged _) =>
        match cache.get check.name with
        | some cached =>
          VerificationStatus.Unverified (UnverifiedReason.FilesChanged
            (find_changed_files cached.file_hashes hash_result.file_hashes))
        | none => status
      | _ => status

/-- One iteration of `run_sync`'s wave loop (runner.rs): state is the cache
plus the set of verified names; `tree` models `compute_check_hash` on the
(fixed) working tree; `none` propagates a truncation panic. -/
def syncStep (config : Config) (tree : List String → HashResult)
    (trailer : List (String × String)) (st : CacheState × List String)
    (check_name : String) : Option (CacheState × List String) :=
  match config.get check_name with
  | none => some st
  | some check =>
    match check.command with
    | none =>
      if check.depends_on.all (fun dep => st.2.contains dep) then
        some (st.1, check_name :: st.2)
      else
        some st
    | some _ =>
      if check.cache_paths.isEmpty then some st
      else
        let config_hash := check.config_hash
        let hash_result := tree check.cache_paths
        let combined := Verify.Trailer.compute_combined_hash config_hash hash_result.combined_hash
        (Verify.Trailer.truncate_hash combined).map (fun truncated =>
          if alookup check_name trailer = some truncated then
            let file_hashes := if check.per_file then hash_result.file_hashes else []
            (st.1.update check_name true config_hash (some hash_result.combined_hash)
              file_hashes [] check.per_file,
             check_name :: st.2)
          else st)

/-- `run_sync` (runner.rs), given the trailer found in history and the flat
sequence of names produced by the dependency graph's execution waves: seeds
verified cache entries for every tracked non-aggregate check whose current
expected truncated hash matches the trailer. -/
def run_sync (config : Config) (cache : CacheState) (tree : List String → HashResult)
    (trailer : List (String × String)) (waveNames : List String) : Option CacheState :=
  (waveNames.foldlM (syncStep config tree trailer) (cache, [])).map Prod.fst

end Verify.Runner

namespace Verify.Claims

open Verify.Cache Verify.Hasher Verify.Runner

/-- The staleness cascade exactly as the spec sentence orders it: "`NeverRun`
if never attempted or never succeeded; `ConfigChanged` if stored config hash
differs; `FilesChanged []` if content hashes differ; else `Verified`", read
as a first-match cascade.  Never attempted means no entry or no stored config
hash; never succeeded means no stored content hash. -/
def check_staleness_claimed (c : CacheState) (check_name : String)
    (current_content_hash current_config_hash : String) : VerificationStatus :=
  match alookup check_name c.checks with
  | none => VerificationStatus.Unverified UnverifiedReason.NeverRun
  | some cache =>
    if cache.config_hash = none ∨ cache.content_hash = none then
      VerificationStatus.Unverified UnverifiedReason.NeverRun
    else if cache.config_hash ≠ some current_config_hash then
      VerificationStatus.Unverified UnverifiedReason.ConfigChanged
    else if cache.content_hash ≠ some current_content_hash then
      VerificationStatus.Unverified (UnverifiedReason.FilesChanged [])
    else VerificationStatus.Verified

/-- The staleness cascade as the code actually orders it (the amended claim):
the config-hash comparison precedes the never-succeeded test, so an entry
whose run failed under a different config reports `ConfigChanged`, not
`NeverRun`. -/
def check_staleness_amended (c : CacheState) (check_name : String)
    (current_content_hash current_config_hash : String) : VerificationStatus :=
  match alookup check_name c.checks with
  | none => VerificationStatus.Unverified UnverifiedReason.NeverRun
  | some cache =>
    if cache.config_hash = none then
      VerificationStatus.Unverified UnverifiedReason.NeverRun
    else if cache.config_hash ≠ some current_config_hash then
      VerificationStatus.Unverified UnverifiedReason.ConfigChanged
    else if cache.content_hash = none then
      VerificationStatus.Unverified UnverifiedReason.NeverRun
    else if cache.content_hash ≠ some current_content_hash then
      VerificationStatus.Unverified (UnverifiedReason.FilesChanged [])
    else VerificationStatus.Verified

/-- The decision engine's cascade in the words of the claim: first stale
dependency in declaration order (unknown dependencies default to stale), then
aggregates are `Verified`, then empty `cache_paths` is `Untracked`, otherwise
the lock store's `check_staleness` with an empty `FilesChanged` list enriched
by `find_changed_files` between cached and current file hashes. -/
def compute_status_claimed (check : Verification) (hash_result : HashResult)
    (cache : CacheState) (dep_staleness : List (String × Bool)) : VerificationStatus :=
  match check.depends_on.find? (fun dep => (alookup dep dep_staleness).getD true) with
  | some dep => VerificationStatus.Unverified (UnverifiedReason.DependencyUnverified dep)
  | none =>
    if check.command.isNone then VerificationStatus.Verified
    else if check.cache_paths.isEmpty then VerificationStatus.Untracked
    else
      match cache.check_staleness check.name hash_result.combined_hash check.config_hash with
      | VerificationStatus.Unverified (UnverifiedReason.FilesChanged _) =>
        VerificationStatus.Unverified (UnverifiedReason.FilesChanged
          (find_changed_files (((cache.get check.name).map CheckCache.file_hashes).getD [])
            hash_result.file_hashes))
      | status => status

/-- The seeded entry `run_sync` writes for a matching check: verified under
the current config and content, per-file hashes kept only in per-file mode,
metadata empty. -/
def syncSeedEntry (check : Verification) (tree : List String → HashResult) : CheckCache :=
  { config_hash := some check.config_hash
    content_hash := some (tree check.cache_paths).combined_hash
    file_hashes := if check.per_file then (tree check.cache_paths).file_hashes else []
    metadata := [] }

/-- Delimiter discipline for one metadata pattern: no newline or comma in any
component (the transcript's separators), and no pipe in the leading regex
(the separator between a pattern and its replacement). -/
def patternSafe : Verify.Config.MetadataPattern → Prop
  | Verify.Config.MetadataPattern.Simple p =>
    ∀ c ∈ p.data, c ≠ '\n' ∧ c ≠ ',' ∧ c ≠ '|'
  | Verify.Config.MetadataPattern.WithReplacement q r =>
    (∀ c ∈ q.data, c ≠ '\n' ∧ c ≠ ',' ∧ c ≠ '|') ∧ (∀ c ∈ r.data, c ≠ '\n' ∧ c ≠ ',')

/-- The condition under which `run_sync` may touch a name: a tracked,
non-aggregate check of the config, visited by the waves, whose current
expected truncated hash equals the trailer's entry for that name. -/
def syncMatchCond (config : Config) (tree : List String → HashResult)
    (trailer : List (String × String)) (waveNames : List String) (n : String) : Prop :=
  n ∈ waveNames ∧
  ∃ check, config.get n = some check ∧ check.command ≠ none ∧ check.cache_paths ≠ [] ∧
    Verify.Trailer.truncate_hash
        (Verify.Trailer.compute_combined_hash check.config_hash
          (tree check.cache_paths).combined_hash) =
      alookup n trailer

end Verify.Claims

namespace Verify

theorem lexLe_refl : ∀ l : List Char, lexLe l l = true
  | [] => rfl
  | a :: as => by simp [lexLe, lexLe_refl as]

theorem lexLe_total : ∀ a b : List Char, lexLe a b = true ∨ lexLe b a = true
  | [], _ => Or.inl rfl
  | _ :: _, [] => Or.inr rfl
  | a :: as, b :: bs => by
    rcases lt_trichotomy a b with h | h | h
    · exact Or.inl (by simp [lexLe, h])
    · subst h
      rcases lexLe_total as bs with ih | ih
      · exact Or.inl (by simp [lexLe, ih])
      · exact Or.inr (by simp [lexLe, ih])
    · exact Or.inr (by simp [lexLe, h])

theorem lexLe_trans : ∀ a b c : List Char,
    lexLe a b = true → lexLe b c = true → lexLe a c = true
  | [], _, _, _, _ => rfl
  | a :: as, [], c, h, _ => by simp [lexLe] at h
  | a :: as, b :: bs, [], _, h => by simp [lexLe] at h
  | a :: as, b :: bs, c :: cs, h₁, h₂ => by
    rcases lt_trichotomy a b with hab | hab | hab
    · rcases lt_trichotomy b c with hbc | hbc | hbc
      · simp [lexLe, lt_trans hab hbc]
      · subst hbc; simp [lexLe, hab]
      · simp [lexLe, hbc, not_lt_of_gt hbc] at h₂
    · subst hab
      rcases lt_trichotomy a c with hbc | hbc | hbc
      · simp [lexLe, hbc]
      · subst hbc
        simp only [lexLe, lt_irrefl, if_false] at h₁ h₂ ⊢
        exact lexLe_trans as bs cs h₁ h₂
      · simp [lexLe, hbc, not_lt_of_gt hbc] at h₂
    · simp [lexLe, hab, not_lt_of_gt hab] at h₁

theorem lexLe_antisymm : ∀ a b : List Char,
    lexLe a b = true → lexLe b a = true → a = b
  | [], [], _, _ => rfl
  | [], _ :: _, _, h => by simp [lexLe] at h
  | _ :: _, [], h, _ => by simp [lexLe] at h
  | a :: as, b :: bs, h₁, h₂ => by
    rcases lt_trichotomy a b with hab | hab | hab
    · simp [lexLe, hab, not_lt_of_gt hab] at h₂
    · subst hab
      simp only [lexLe, lt_irrefl, if_false] at h₁ h₂
      exact congrArg (a :: ·) (lexLe_antisymm as bs h₁ h₂)
    · simp [lexLe, hab, not_lt_of_gt hab] at h₁

theorem strLe_trans (a b c : String) (h₁ : strLe a b = true) (h₂ : strLe b c = true) :
    strLe a c = true := lexLe_trans a.data b.data c.data h₁ h₂

theorem strLe_total (a b : String) : (strLe a b || strLe b a) = true := by
  rcases lexLe_total a.data b.data with h | h <;> simp [strLe, h]

theorem strLe_antisymm (a b : String) (h₁ : strLe a b = true) (h₂ : strLe b a = true) :
    a = b := String.ext (lexLe_antisymm a.data b.data h₁ h₂)

/-- Sorting with the Rust string order is a function of the multiset of
inputs: permuted inputs sort identically. -/
theorem sortStrings_congr {l₁ l₂ : List String} (h : l₁.Perm l₂) :
    sortStrings l₁ = sortStrings l₂ := by
  haveI : IsAntisymm String (fun a b => strLe a b = true) :=
    ⟨fun a b => strLe_antisymm a b⟩
  haveI : IsTotal String (fun a b => strLe a b = true) :=
    ⟨fun a b => by
      rcases Bool.or_eq_true_iff.mp (strLe_total a b) with hl | hl
      · exact Or.inl hl
      · exact Or.inr hl⟩
  haveI : IsTrans String (fun a b => strLe a b = true) :=
    ⟨fun a b c => strLe_trans a b c⟩
  have hs₁ : List.Sorted (fun a b => strLe a b = true) (sortStrings l₁) :=
    List.sorted_insertionSort _ l₁
  have hs₂ : List.Sorted (fun a b => strLe a b = true) (sortStrings l₂) :=
    List.sorted_insertionSort _ l₂
  have hperm : (sortStrings l₁).Perm (sortStrings l₂) :=
    ((List.perm_insertionSort _ l₁).trans h).trans (List.perm_insertionSort _ l₂).symm
  exact List.eq_of_perm_of_sorted hperm hs₁ hs₂

theorem lexLt_irrefl : ∀ l : List Char, lexLt l l = false
  | [] => rfl
  | a :: as => by simp [lexLt, lexLt_irrefl as]

theorem lexLt_asymm : ∀ a b : List Char, lexLt a b = true → lexLt b a = false
  | [], [], h => by simp [lexLt] at h
  | [], _ :: _, _ => rfl
  | _ :: _, [], h => by simp [lexLt] at h
  | a :: as, b :: bs, h => by
    rcases lt_trichotomy a b with hab | hab | hab
    · simp [lexLt, hab, not_lt_of_gt hab]
    · subst hab
      simp only [lexLt, lt_irrefl, if_false] at h ⊢
      exact lexLt_asymm as bs h
    · simp [lexLt, hab, not_lt_of_gt hab] at h

theorem lexLt_ne {a b : List Char} (h : lexLt a b = true) : a ≠ b := by
  intro he
  subst he
  rw [lexLt_irrefl] at h
  exact Bool.false_ne_true h

theorem alookup_cons_self {α : Type} (k : String) (v : α) (m : List (String × α)) :
    alookup k ((k, v) :: m) = some v := by
  simp [alookup]

theorem alookup_cons_ne {α : Type} {k k' : String} (v : α) (m : List (String × α))
    (h : k' ≠ k) : alookup k ((k', v) :: m) = alookup k m := by
  simp [alookup, h]

theorem alookup_btInsert_self {α : Type} (k : String) (v : α) :
    ∀ m : List (String × α), alookup k (btInsert k v m) = some v
  | [] => by simp [btInsert, alookup]
  | (k', v') :: rest => by
    by_cases h₁ : strLt k k'
    · rw [btInsert, if_pos h₁, alookup_cons_self]
    · by_cases h₂ : k = k'
      · rw [btInsert, if_neg h₁, if_pos h₂, alookup_cons_self]
      · have h₃ : k' ≠ k := fun he => h₂ he.symm
        rw [btInsert, if_neg h₁, if_neg h₂, alookup_cons_ne _ _ h₃,
          alookup_btInsert_self k v rest]

theorem alookup_btInsert_ne {α : Type} (k : String) (v : α) (n : String) (h : n ≠ k) :
    ∀ m : List (String × α), alookup n (btInsert k v m) = alookup n m
  | [] => by
    have h' : k ≠ n := fun he => h he.symm
    simp [btInsert, alookup, h']
  | (k', v') :: rest => by
    have h' : k ≠ n := fun he => h he.symm
    by_cases h₁ : strLt k k'
    · rw [btInsert, if_pos h₁, alookup_cons_ne _ _ h']
    · by_cases h₂ : k = k'
      · subst h₂
        rw [btInsert, if_neg h₁, if_pos rfl, alookup_cons_ne _ _ h', alookup_cons_ne _ _ h']
      · rw [btInsert, if_neg h₁, if_neg h₂]
        by_cases h₃ : k' = n
        · subst h₃
          rw [alookup_cons_self, alookup_cons_self]
        · rw [alookup_cons_ne _ _ h₃, alookup_cons_ne _ _ h₃,
            alookup_btInsert_ne k v n h rest]

theorem alookup_eq_none_iff {α : Type} (k : String) :
    ∀ m : List (String × α), alookup k m = none ↔ k ∉ m.map Prod.fst
  | [] => by simp [alookup]
  | (k', v') :: rest => by
    by_cases h : k' = k
    · subst h
      simp [alookup]
    · have h' : ¬ (k = k') := fun he => h he.symm
      simp [alookup, h, h', alookup_eq_none_iff k rest]

theorem alookup_eq_some_of_mem {α : Type} {k : String} {v : α} :
    ∀ {m : List (String × α)}, (m.map Prod.fst).Nodup → (k, v) ∈ m →
      alookup k m = some v
  | [], _, hm => by simp at hm
  | (k', v') :: rest, hn, hm => by
    simp only [List.map_cons, List.nodup_cons] at hn
    rcases List.mem_cons.mp hm with he | hrest
    · rw [Prod.mk.injEq] at he
      rw [he.1, he.2, alookup_cons_self]
    · have hk : k' ≠ k := by
        intro he
        subst he
        exact hn.1 (List.mem_map.mpr ⟨(k', v), hrest, rfl⟩)
      rw [alookup_cons_ne _ _ hk]
      exact alookup_eq_some_of_mem hn.2 hrest

theorem alookup_mem_of_eq_some {α : Type} {k : String} {v : α} :
    ∀ {m : List (String × α)}, alookup k m = some v → (k, v) ∈ m
  | [], h => by simp [alookup] at h
  | (k', v') :: rest, h => by
    by_cases he : k' = k
    · subst he
      rw [alookup_cons_self, Option.some.injEq] at h
      subst h
      exact List.mem_cons_self _ _
    · rw [alookup_cons_ne _ _ he] at h
      exact List.mem_cons_of_mem _ (alookup_mem_of_eq_some h)

/-- Association lookup is invariant under permutation when keys are unique
(the `HashMap` iteration-order guarantee used throughout). -/
theorem alookup_congr_perm {α : Type} {m₁ m₂ : List (String × α)} (h : m₁.Perm m₂)
    (hn : (m₁.map Prod.fst).Nodup) (k : String) : alookup k m₁ = alookup k m₂ := by
  have hn₂ : (m₂.map Prod.fst).Nodup := (h.map Prod.fst).nodup_iff.mp hn
  cases hv : alookup k m₁ with
  | some v =>
    exact (alookup_eq_some_of_mem hn₂ (h.mem_iff.mp (alookup_mem_of_eq_some hv))).symm
  | none =>
    refine ((alookup_eq_none_iff k m₂).mpr ?_).symm
    exact fun hk => (alookup_eq_none_iff k m₁).mp hv ((h.map Prod.fst).mem_iff.mpr hk)

/-- Splitting at a reserved separator character is unambiguous. -/
theorem append_sep_inj {sep : Char} :
    ∀ {a₁ : List Char} {b₁ : List Char} {a₂ b₂ : List Char},
      (∀ c ∈ a₁, c ≠ sep) → (∀ c ∈ a₂, c ≠ sep) →
      a₁ ++ sep :: b₁ = a₂ ++ sep :: b₂ → a₁ = a₂ ∧ b₁ = b₂
  | [], b₁, a₂, b₂, _, h₂, h => by
    cases a₂ with
    | nil =>
      simp only [List.nil_append, List.cons.injEq] at h
      exact ⟨rfl, h.2⟩
    | cons a as =>
      simp only [List.nil_append, List.cons_append, List.cons.injEq] at h
      exact absurd h.1.symm (h₂ a (List.mem_cons_self a as))
  | c :: cs, b₁, a₂, b₂, h₁, h₂, h => by
    cases a₂ with
    | nil =>
      simp only [List.nil_append, List.cons_append, List.cons.injEq] at h
      exact absurd h.1 (h₁ c (List.mem_cons_self c cs))
    | cons a as =>
      simp only [List.cons_append, List.cons.injEq] at h
      obtain ⟨hca, hrest⟩ := h
      obtain ⟨hx, hy⟩ := append_sep_inj (fun d hd => h₁ d (List.mem_cons_of_mem c hd))
        (fun d hd => h₂ d (List.mem_cons_of_mem a hd)) hrest
      exact ⟨by rw [hca, hx], hy⟩

/-- Concatenating separator-terminated pieces is injective when the pieces
avoid the separator. -/
theorem joinTerm_inj (sep : Char) :
    ∀ {l₁ l₂ : List (List Char)},
      (∀ p ∈ l₁, ∀ c ∈ p, c ≠ sep) → (∀ p ∈ l₂, ∀ c ∈ p, c ≠ sep) →
      (l₁.map (· ++ [sep])).flatten = (l₂.map (· ++ [sep])).flatten → l₁ = l₂
  | [], [], _, _, _ => rfl
  | [], p :: ps, _, _, h => by
    simp only [List.map_nil, List.flatten_nil, List.map_cons, List.flatten_cons] at h
    exact absurd h.symm (by simp)
  | p :: ps, [], _, _, h => by
    simp only [List.map_nil, List.flatten_nil, List.map_cons, List.flatten_cons] at h
    exact absurd h (by simp)
  | p₁ :: ps₁, p₂ :: ps₂, h₁, h₂, h => by
    simp only [List.map_cons, List.flatten_cons, List.append_assoc, List.singleton_append] at h
    obtain ⟨hp, hrest⟩ := append_sep_inj (h₁ p₁ (List.mem_cons_self _ _))
      (h₂ p₂ (List.mem_cons_self _ _)) h
    have hps := joinTerm_inj sep (fun q hq => h₁ q (List.mem_cons_of_mem _ hq))
      (fun q hq => h₂ q (List.mem_cons_of_mem _ hq)) hrest
    rw [hp, hps]

theorem digitChar_toNat {d : Nat} (h : d < 10) : (digitChar d).toNat = 48 + d := by
  interval_cases d <;> rfl

theorem digitChar_inj {d₁ d₂ : Nat} (h₁ : d₁ < 10) (h₂ : d₂ < 10)
    (h : digitChar d₁ = digitChar d₂) : d₁ = d₂ := by
  have := congrArg Char.toNat h
  rw [digitChar_toNat h₁, digitChar_toNat h₂] at this
  omega

/-- The value read back from a decimal digit list. -/
def digitsVal (l : List Char) : Nat :=
  l.foldl (fun a c => 10 * a + (c.toNat - 48)) 0

theorem natDigits_spec (n : Nat) :
    digitsVal (natDigits n) = n ∧ natDigits n ≠ [] ∧
      ∀ c ∈ natDigits n, 48 ≤ c.toNat ∧ c.toNat ≤ 57 := by
  induction n using Nat.strong_induction_on with
  | _ n ih =>
    rw [natDigits]
    by_cases h : n < 10
    · rw [dif_pos h]
      refine ⟨?_, by simp, ?_⟩
      · simp [digitsVal, digitChar_toNat h]
      · intro c hc
        simp only [List.mem_singleton] at hc
        subst hc
        rw [digitChar_toNat h]
        omega
    · rw [dif_neg h]
      have hd : n / 10 < n := Nat.div_lt_self (by omega) (by omega)
      obtain ⟨hval, hne, hrange⟩ := ih (n / 10) hd
      refine ⟨?_, by simp, ?_⟩
      · have hm : n % 10 < 10 := Nat.mod_lt _ (by omega)
        simp only [digitsVal, List.foldl_append, List.foldl_cons, List.foldl_nil]
        rw [show (natDigits (n / 10)).foldl (fun a c => 10 * a + (c.toNat - 48)) 0 = n / 10
          from hval]
        rw [digitChar_toNat hm]
        omega
      · intro c hc
        rcases List.mem_append.mp hc with hc | hc
        · exact hrange c hc
        · simp only [List.mem_singleton] at hc
          subst hc
          have hm : n % 10 < 10 := Nat.mod_lt _ (by omega)
          rw [digitChar_toNat hm]
          omega

theorem natDigits_inj {m n : Nat} (h : natDigits m = natDigits n) : m = n := by
  have hm := (natDigits_spec m).1
  have hn := (natDigits_spec n).1
  rw [← hm, ← hn, h]

theorem natDigits_ne_nil (n : Nat) : natDigits n ≠ [] := (natDigits_spec n).2.1

theorem natDigits_no_newline (n : Nat) : ∀ c ∈ natDigits n, c ≠ '\n' := by
  intro c hc he
  have := ((natDigits_spec n).2.2 c hc)
  rw [he] at this
  have h10 : ('\n').toNat = 10 := rfl
  rw [h10] at this
  omega

theorem utf8Len_cons (c : Char) (l : List Char) :
    String.utf8Len (c :: l) = String.utf8Len l + c.utf8Size := rfl

theorem utf8ByteSize_eq (s : String) : s.utf8ByteSize = String.utf8Len s.data := rfl

theorem utf8Len_eq_length_of_ascii :
    ∀ {l : List Char}, (∀ c ∈ l, c.utf8Size = 1) → String.utf8Len l = l.length
  | [], _ => rfl
  | c :: rest, h => by
    rw [utf8Len_cons, h c (List.mem_cons_self _ _),
      utf8Len_eq_length_of_ascii (fun d hd => h d (List.mem_cons_of_mem _ hd))]
    simp

theorem sliceBytes_full : ∀ l : List Char, sliceBytes l (String.utf8Len l) = some l
  | [] => rfl
  | c :: rest => by
    have hpos : 1 ≤ c.utf8Size := Char.utf8Size_pos c
    cases hk : String.utf8Len (c :: rest) with
    | zero =>
      rw [utf8Len_cons] at hk
      omega
    | succ m =>
      have hm : String.utf8Len rest + c.utf8Size = m + 1 := by rw [← utf8Len_cons, hk]
      rw [sliceBytes, if_pos (by omega)]
      have : m + 1 - c.utf8Size = String.utf8Len rest := by omega
      rw [this, sliceBytes_full rest]
      rfl

theorem sliceBytes_ascii :
    ∀ (l : List Char) (k : Nat), (∀ c ∈ l, c.utf8Size = 1) → k ≤ l.length →
      sliceBytes l k = some (l.take k)
  | _, 0, _, _ => by simp [sliceBytes]
  | [], k + 1, _, h => by simp at h
  | c :: rest, k + 1, ha, h => by
    have h1 : c.utf8Size = 1 := ha c (List.mem_cons_self _ _)
    rw [sliceBytes, if_pos (by omega)]
    have : k + 1 - c.utf8Size = k := by omega
    rw [this, sliceBytes_ascii rest k (fun d hd => ha d (List.mem_cons_of_mem _ hd))
      (by simpa using h)]
    rfl

theorem sliceBytes_pre :
    ∀ (l : List Char) (k : Nat) (t : List Char), sliceBytes l k = some t →
      (∃ r, l = t ++ r) ∧ String.utf8Len t = k
  | l, 0, t, h => by
    simp only [sliceBytes, Option.some.injEq] at h
    subst h
    exact ⟨⟨l, rfl⟩, rfl⟩
  | [], k + 1, t, h => by simp [sliceBytes] at h
  | c :: rest, k + 1, t, h => by
    rw [sliceBytes] at h
    by_cases hle : c.utf8Size ≤ k + 1
    · rw [if_pos hle] at h
      cases ht : sliceBytes rest (k + 1 - c.utf8Size) with
      | none => rw [ht] at h; simp at h
      | some t' =>
        rw [ht] at h
        simp only [Option.map_some', Option.some.injEq] at h
        subst h
        obtain ⟨⟨r, hr⟩, hlen⟩ := sliceBytes_pre rest (k + 1 - c.utf8Size) t' ht
        exact ⟨⟨r, by rw [List.cons_append, hr]⟩, by rw [utf8Len_cons]; omega⟩
    · rw [if_neg hle] at h
      simp at h

theorem truncate_hash_of_small {s : String} (h : s.utf8ByteSize ≤ 8) :
    Verify.Trailer.truncate_hash s = some s := by
  rw [Verify.Trailer.truncate_hash, Nat.min_eq_right h, utf8ByteSize_eq, sliceBytes_full]
  rfl

theorem truncate_hash_ascii {s : String} (h : ∀ c ∈ s.data, c.utf8Size = 1) :
    Verify.Trailer.truncate_hash s = some (String.mk (s.data.take 8)) := by
  have hlen : String.utf8Len s.data = s.data.length := utf8Len_eq_length_of_ascii h
  rw [Verify.Trailer.truncate_hash, utf8ByteSize_eq, hlen,
    sliceBytes_ascii s.data _ h (Nat.min_le_right _ _)]
  have : s.data.take (min 8 s.data.length) = s.data.take 8 := by
    rw [← List.take_take, List.take_length]
  rw [Option.map_some', this]

theorem blake3String_inj {s₁ s₂ : String} (h : blake3String s₁ = blake3String s₂) :
    s₁ = s₂ := by
  have hd := congrArg String.data h
  rw [blake3String, blake3String, String.data_append, String.data_append] at hd
  exact String.ext (List.append_cancel_left hd)

theorem check_staleness_filesChanged_entry {c : Verify.Cache.CacheState} {n ch cfg : String}
    {l : List String}
    (h : c.check_staleness n ch cfg =
      Verify.Cache.VerificationStatus.Unverified (Verify.Cache.UnverifiedReason.FilesChanged l)) :
    ∃ e, alookup n c.checks = some e := by
  cases he : alookup n c.checks with
  | none =>
    rw [Verify.Cache.CacheState.check_staleness, he] at h
    simp at h
  | some e => exact ⟨e, rfl⟩

end Verify

namespace Verify

theorem splitChar_ne_nil (sep : Char) : ∀ l : List Char, splitChar sep l ≠ []
  | [] => by simp [splitChar]
  | c :: rest => by
    rw [splitChar]
    cases h : splitChar sep rest with
    | nil => dsimp only; split <;> simp
    | cons cur parts => dsimp only; split <;> simp

theorem splitChar_single (sep : Char) :
    ∀ l : List Char, (∀ c ∈ l, c ≠ sep) → splitChar sep l = [l]
  | [], _ => rfl
  | c :: rest, h => by
    rw [splitChar, splitChar_single sep rest (fun d hd => h d (List.mem_cons_of_mem c hd))]
    dsimp only
    rw [if_neg (h c (List.mem_cons_self c rest))]

theorem splitChar_append (sep : Char) :
    ∀ (a rest : List Char), (∀ c ∈ a, c ≠ sep) →
      splitChar sep (a ++ sep :: rest) = a :: splitChar sep rest
  | [], rest, _ => by
    rw [List.nil_append, splitChar]
    cases h : splitChar sep rest with
    | nil => exact absurd h (splitChar_ne_nil sep rest)
    | cons cur parts => dsimp only; rw [if_pos rfl]
  | c :: a', rest, h => by
    rw [List.cons_append, splitChar,
      splitChar_append sep a' rest (fun d hd => h d (List.mem_cons_of_mem c hd))]
    dsimp only
    rw [if_neg (h c (List.mem_cons_self c a'))]

theorem splitOnceChar_append (sep : Char) :
    ∀ (k v : List Char), (∀ c ∈ k, c ≠ sep) →
      splitOnceChar sep (k ++ sep :: v) = some (k, v)
  | [], v, _ => by
    rw [List.nil_append, splitOnceChar, if_pos rfl]
  | c :: k', v, h => by
    rw [List.cons_append, splitOnceChar,
      if_neg (h c (List.mem_cons_self c k')),
      splitOnceChar_append sep k' v (fun d hd => h d (List.mem_cons_of_mem c hd))]
    rfl

theorem dropWhile_eq_self_of {p : Char → Bool} :
    ∀ l : List Char, (∀ c ∈ l, p c = false) → l.dropWhile p = l
  | [], _ => rfl
  | c :: rest, h => by
    rw [List.dropWhile_cons, h c (List.mem_cons_self c rest)]
    simp

theorem trimChars_id (l : List Char) (h : ∀ c ∈ l, Char.isWhitespace c = false) :
    trimChars l = l := by
  rw [trimChars, dropWhile_eq_self_of l h,
    dropWhile_eq_self_of l.reverse (fun c hc => h c (List.mem_reverse.mp hc)),
    List.reverse_reverse]

theorem joinSep_data_cons (s x y : String) (rest : List String) :
    (joinSep s (x :: y :: rest)).data = x.data ++ s.data ++ (joinSep s (y :: rest)).data := by
  have h : joinSep s (x :: y :: rest) = x ++ s ++ joinSep s (y :: rest) := rfl
  rw [h]
  simp [String.data_append]

theorem splitChar_joinSep :
    ∀ parts : List String, parts ≠ [] → (∀ p ∈ parts, ∀ c ∈ p.data, c ≠ ',') →
      splitChar ',' (joinSep "," parts).data = parts.map String.data
  | [], h, _ => absurd rfl h
  | [x], _, hfree => by
    rw [joinSep]
    exact splitChar_single ',' x.data (hfree x (List.mem_cons_self x []))
  | x :: y :: rest, _, hfree => by
    rw [joinSep_data_cons]
    have hx : ∀ c ∈ x.data, c ≠ ',' := hfree x (List.mem_cons_self _ _)
    have hcomma : ("," : String).data = [','] := rfl
    rw [hcomma, List.append_assoc, List.singleton_append,
      splitChar_append ',' x.data _ hx,
      splitChar_joinSep (y :: rest) (by simp)
        (fun p hp => hfree p (List.mem_cons_of_mem x hp))]
    rfl

/-- Inserting a key greater than every present key appends at the end. -/
theorem btInsert_append_of_gt {α : Type} (k : String) (v : α) :
    ∀ m : List (String × α), (∀ p ∈ m, lexLt p.1.data k.data = true) →
      btInsert k v m = m ++ [(k, v)]
  | [], _ => rfl
  | (k', v') :: rest, h => by
    have hlt : lexLt k'.data k.data = true := h (k', v') (List.mem_cons_self _ _)
    have h1 : strLt k k' = false := lexLt_asymm k'.data k.data hlt
    have h2 : ¬ (k = k') := by
      intro he
      subst he
      rw [lexLt_irrefl] at hlt
      exact Bool.false_ne_true hlt
    rw [btInsert, if_neg (by simp [h1]), if_neg h2,
      btInsert_append_of_gt k v rest (fun p hp => h p (List.mem_cons_of_mem _ hp))]
    rfl

theorem fold_btInsert_ascending {α : Type} :
    ∀ (m : List (String × α)) (acc : List (String × α)),
      m.Pairwise (fun p q => lexLt p.1.data q.1.data = true) →
      (∀ p ∈ acc, ∀ q ∈ m, lexLt p.1.data q.1.data = true) →
      m.foldl (fun acc' q => btInsert q.1 q.2 acc') acc = acc ++ m
  | [], acc, _, _ => by simp
  | q :: rest, acc, hs, hacc => by
    rw [List.pairwise_cons] at hs
    rw [List.foldl_cons,
      btInsert_append_of_gt q.1 q.2 acc
        (fun p hp => hacc p hp q (List.mem_cons_self _ _)),
      fold_btInsert_ascending rest (acc ++ [(q.1, q.2)]) hs.2 ?_]
    · simp
    · intro p hp r hr
      rcases List.mem_append.mp hp with hpa | hpq
      · exact hacc p hpa r (List.mem_cons_of_mem _ hr)
      · simp only [List.mem_singleton] at hpq
        subst hpq
        exact hs.1 r hr

theorem truncate_facts {v t : String} (h : Verify.Trailer.truncate_hash v = some t) :
    (∃ r, v.data = t.data ++ r) ∧ String.utf8Len t.data ≤ 8 := by
  rw [Verify.Trailer.truncate_hash] at h
  cases hs : sliceBytes v.data (min 8 v.utf8ByteSize) with
  | none => rw [hs] at h; simp at h
  | some l =>
    rw [hs, Option.map_some', Option.some.injEq] at h
    subst h
    obtain ⟨⟨r, hr⟩, hlen⟩ := sliceBytes_pre v.data _ l hs
    exact ⟨⟨r, hr⟩, by rw [hlen]; exact Nat.min_le_left _ _⟩

end Verify

namespace Verify.Trailer

/-- `format_trailer_value` succeeds exactly when every hash truncates, and
then the output is the comma join of the truncated `name:hash` entries. -/
theorem mapM_trunc :
    ∀ (m : List (String × String)) (parts : List String),
      m.mapM (fun nh => (truncate_hash nh.2).map (fun t => nh.1 ++ ":" ++ t)) = some parts →
      ∃ m' : List (String × String),
        List.Forall₂
          (fun p q : String × String => q.1 = p.1 ∧ truncate_hash p.2 = some q.2) m m' ∧
        parts = m'.map (fun q => q.1 ++ ":" ++ q.2)
  | [], parts, h => by
    rw [List.mapM_nil] at h
    exact ⟨[], List.Forall₂.nil, (Option.some.inj h).symm⟩
  | (k, v) :: rest, parts, h => by
    rw [List.mapM_cons] at h
    cases htr : truncate_hash v with
    | none => rw [htr] at h; simp at h
    | some t =>
      rw [htr] at h
      cases hrest :
          rest.mapM (fun nh => (truncate_hash nh.2).map (fun t => nh.1 ++ ":" ++ t)) with
      | none => rw [hrest] at h; simp at h
      | some ps =>
        rw [hrest] at h
        have h' : (k ++ ":" ++ t) :: ps = parts := Option.some.inj h
        obtain ⟨m', hf, hps⟩ := mapM_trunc rest ps hrest
        exact ⟨(k, t) :: m', List.Forall₂.cons ⟨rfl, htr⟩ hf,
          by rw [← h', hps]; rfl⟩

/-- When every stored hash is at most 8 bytes (already truncated), formatting
re-emits the entries verbatim. -/
theorem mapM_trunc_self :
    ∀ m' : List (String × String), (∀ q ∈ m', truncate_hash q.2 = some q.2) →
      m'.mapM (fun nh => (truncate_hash nh.2).map (fun t => nh.1 ++ ":" ++ t)) =
        some (m'.map (fun q => q.1 ++ ":" ++ q.2))
  | [], _ => by rw [List.mapM_nil]; rfl
  | q :: rest, h => by
    rw [List.mapM_cons, h q (List.mem_cons_self _ _),
      mapM_trunc_self rest (fun p hp => h p (List.mem_cons_of_mem _ hp))]
    rfl

/-- The parse fold over rendered `name:hash` parts is the insertion fold over
the pairs themselves. -/
theorem parse_fold_eq :
    ∀ (m' : List (String × String)) (acc : List (String × String)),
      (∀ q ∈ m', (∀ c ∈ q.1.data, c ≠ ':' ∧ Char.isWhitespace c = false) ∧
        (∀ c ∈ q.2.data, Char.isWhitespace c = false)) →
      ((m'.map (fun q => q.1 ++ ":" ++ q.2)).map String.data).foldl
        (fun m part =>
          match Verify.splitOnceChar ':' (Verify.trimChars part) with
          | some nh => Verify.btInsert ⟨nh.1⟩ ⟨nh.2⟩ m
          | none => m) acc =
      m'.foldl (fun m q => Verify.btInsert q.1 q.2 m) acc
  | [], _, _ => rfl
  | q :: rest, acc, h => by
    have hq := h q (List.mem_cons_self _ _)
    have hdata : (q.1 ++ ":" ++ q.2).data = q.1.data ++ ':' :: q.2.data := by
      simp [String.data_append]
    have hnws : ∀ c ∈ q.1.data ++ ':' :: q.2.data, Char.isWhitespace c = false := by
      intro c hc
      rcases List.mem_append.mp hc with hc1 | hc2
      · exact (hq.1 c hc1).2
      · rcases List.mem_cons.mp hc2 with he | hc3
        · rw [he]; rfl
        · exact hq.2 c hc3
    simp only [List.map_cons, List.foldl_cons, hdata]
    rw [Verify.trimChars_id _ hnws,
      Verify.splitOnceChar_append ':' q.1.data q.2.data (fun c hc => (hq.1 c hc).1)]
    have heta : (⟨q.1.data⟩ : String) = q.1 := rfl
    have heta2 : (⟨q.2.data⟩ : String) = q.2 := rfl
    dsimp only
    rw [heta, heta2,
      parse_fold_eq rest _ (fun p hp => h p (List.mem_cons_of_mem _ hp))]

/-- Truncation keeps the key of every entry. -/
theorem trunc_forall₂_keys {m m' : List (String × String)} {P : String × String → String × String → Prop}
    (hf : List.Forall₂ (fun p q : String × String => q.1 = p.1 ∧ P p q) m m') :
    m'.map Prod.fst = m.map Prod.fst := by
  induction hf with
  | nil => rfl
  | cons hpq _ ih =>
    simp only [List.map_cons, ih, List.cons.injEq]
    exact ⟨hpq.1, trivial⟩

/-- Every truncated value is a prefix of its original, hence inherits the
safe-character conditions and re-truncates to itself. -/
theorem trunc_forall₂_vals {m m' : List (String × String)}
    (hf : List.Forall₂
      (fun p q : String × String => q.1 = p.1 ∧ truncate_hash p.2 = some q.2) m m')
    (hvals : ∀ p ∈ m, ∀ c ∈ p.2.data, c ≠ ',' ∧ Char.isWhitespace c = false) :
    ∀ q ∈ m', (∀ c ∈ q.2.data, c ≠ ',' ∧ Char.isWhitespace c = false) ∧
      truncate_hash q.2 = some q.2 := by
  induction hf with
  | nil => intro q hq; simp at hq
  | @cons p q rest rest' hpq hrest ih =>
    intro r hr
    rcases List.mem_cons.mp hr with he | hmem
    · subst he
      obtain ⟨⟨suffix, hsuf⟩, hlen⟩ := Verify.truncate_facts hpq.2
      constructor
      · intro c hc
        exact hvals p (List.mem_cons_self _ _) c (by rw [hsuf]; exact List.mem_append_left _ hc)
      · exact Verify.truncate_hash_of_small hlen
    · exact ih (fun p' hp' => hvals p' (List.mem_cons_of_mem _ hp')) r hmem

end Verify.Trailer

namespace Verify.Claims

open Verify.Config Verify.Cache Verify.Metadata Verify.Hasher

/-- C8 counterexample: a key containing a comma formats fine but does not
survive the parse: `parse` splits its rendering into a colon-less piece
(dropped) and a shifted pair, so re-formatting produces a different string. -/
theorem C8_counterexample :
    Verify.Trailer.format_trailer_value [("a,b", "12345678")] = some "a,b:12345678" ∧
    Verify.Trailer.format_trailer_value
        (Verify.Trailer.parse_trailer_value "a,b:12345678") = some "b:12345678" ∧
    ("b:12345678" : String) ≠ "a,b:12345678" := by
  refine ⟨by decide, by decide, by decide⟩

/-- C8 (amended): formatting then parsing trailer values round-trips for
every map whose keys avoid commas, colons and whitespace and whose values
avoid commas and whitespace (hex hashes do) — `format(parse s) = s` for any
`s` produced by `format` on such a map; keys containing the separator
characters break the round-trip. -/
theorem C8_trailer_roundtrip (m : List (String × String)) (s : String)
    (hsorted : m.Pairwise (fun p q => Verify.lexLt p.1.data q.1.data = true))
    (hkeys : ∀ p ∈ m, ∀ c ∈ p.1.data, c ≠ ',' ∧ c ≠ ':' ∧ Char.isWhitespace c = false)
    (hvals : ∀ p ∈ m, ∀ c ∈ p.2.data, c ≠ ',' ∧ Char.isWhitespace c = false)
    (h : Verify.Trailer.format_trailer_value m = some s) :
    Verify.Trailer.format_trailer_value (Verify.Trailer.parse_trailer_value s) = some s := by
  rw [Verify.Trailer.format_trailer_value] at h
  cases hmap : m.mapM
      (fun nh => (Verify.Trailer.truncate_hash nh.2).map (fun t => nh.1 ++ ":" ++ t)) with
  | none => rw [hmap] at h; simp at h
  | some parts =>
    rw [hmap, Option.map_some', Option.some.injEq] at h
    obtain ⟨m', hf, hparts⟩ := Verify.Trailer.mapM_trunc m parts hmap
    have hkeysEq : m'.map Prod.fst = m.map Prod.fst := Verify.Trailer.trunc_forall₂_keys hf
    have hvals' := Verify.Trailer.trunc_forall₂_vals hf hvals
    have hkeys' : ∀ q ∈ m', ∀ c ∈ q.1.data,
        c ≠ ',' ∧ c ≠ ':' ∧ Char.isWhitespace c = false := by
      intro q hq
      have hqk : q.1 ∈ m.map Prod.fst := by
        rw [← hkeysEq]
        exact List.mem_map.mpr ⟨q, hq, rfl⟩
      obtain ⟨p, hp, hpk⟩ := List.mem_map.mp hqk
      rw [← hpk]
      exact hkeys p hp
    have hsorted' : m'.Pairwise (fun p q => Verify.lexLt p.1.data q.1.data = true) := by
      have h1 : (m.map Prod.fst).Pairwise
          (fun a b : String => Verify.lexLt a.data b.data = true) :=
        List.pairwise_map.mpr hsorted
      rw [← hkeysEq] at h1
      exact List.pairwise_map.mp h1
    cases hm' : m' with
    | nil =>
      subst hm'
      cases hf
      have hs : s = "" := by
        rw [← h, hparts]
        rfl
      subst hs
      decide
    | cons q rest =>
      have hne : parts ≠ [] := by
        rw [hparts, hm']
        simp
      have hfree : ∀ p ∈ parts, ∀ c ∈ p.data, c ≠ ',' := by
        rw [hparts]
        intro p hp c hc
        obtain ⟨q', hq', hqp⟩ := List.mem_map.mp hp
        rw [← hqp] at hc
        have hcd : (q'.1 ++ ":" ++ q'.2).data = q'.1.data ++ ':' :: q'.2.data := by
          simp [String.data_append]
        rw [hcd] at hc
        rcases List.mem_append.mp hc with hc1 | hc2
        · exact (hkeys' q' hq' c hc1).1
        · rcases List.mem_cons.mp hc2 with he | hc3
          · rw [he]; decide
          · exact ((hvals' q' hq').1 c hc3).1
      have hparse : Verify.Trailer.parse_trailer_value s = m' := by
        rw [Verify.Trailer.parse_trailer_value, ← h, Verify.splitChar_joinSep parts hne hfree,
          hparts]
        rw [Verify.Trailer.parse_fold_eq m' []
          (fun q' hq' => ⟨fun c hc => ⟨(hkeys' q' hq' c hc).2.1, (hkeys' q' hq' c hc).2.2⟩,
            fun c hc => ((hvals' q' hq').1 c hc).2⟩)]
        rw [Verify.fold_btInsert_ascending m' [] hsorted' (fun p hp => by simp at hp)]
        rfl
      rw [hparse, Verify.Trailer.format_trailer_value,
        Verify.Trailer.mapM_trunc_self m' (fun q' hq' => (hvals' q' hq').2),
        Option.map_some', ← h, hparts]

/-- Rendering the sorted cache paths is concatenation of comma-terminated
pieces. -/
theorem foldl_append_comma :
    ∀ (l : List String) (acc : String),
      (l.foldl (fun acc p => acc ++ p ++ ",") acc).data =
        acc.data ++ ((l.map String.data).map (· ++ [','])).flatten
  | [], acc => by simp
  | p :: rest, acc => by
    rw [List.foldl_cons, foldl_append_comma rest (acc ++ p ++ ",")]
    simp [String.data_append]

/-- Rendering the sorted metadata entries is concatenation of comma-terminated
`key = pattern` pieces. -/
theorem foldl_meta_comma (R : String → String) :
    ∀ (l : List String) (acc : String),
      (l.foldl (fun acc k => acc ++ k ++ "=" ++ R k ++ ",") acc).data =
        acc.data ++ ((l.map (fun k => k.data ++ '=' :: (R k).data)).map (· ++ [','])).flatten
  | [], acc => by simp
  | k :: rest, acc => by
    rw [List.foldl_cons, foldl_meta_comma R rest (acc ++ k ++ "=" ++ R k ++ ",")]
    have h : ("=" : String).data = ['='] := rfl
    simp [String.data_append, h]

/-- The exact character stream of `configTranscript`, split at the four
newline separators. -/
theorem configTranscript_data (v : Verification) :
    (configTranscript v).data =
      (("command:" : String).data ++ v.command.data) ++ '
' ::
      ((("cache_paths:" : String).data ++
          (((Verify.sortStrings v.cache_paths).map String.data).map (· ++ [','])).flatten) ++ '
' ::
      ((("timeout:" : String).data ++ (match v.timeout_secs with
          | some t => Verify.natDigits t
          | none => [])) ++ '
' ::
      ((("per_file:" : String).data ++
          (if v.per_file then ("true" : String) else "false").data) ++ '
' ::
      (("metadata:" : String).data ++
        (((Verify.sortStrings (v.metadata.map Prod.fst)).map
            (fun k => k.data ++ '=' ::
              (renderPattern
                ((Verify.alookup k v.metadata).getD (MetadataPattern.Simple ""))).data)).map
          (· ++ [','])).flatten)))) := by
  have hnl : ("\n" : String).data = ['\n'] := rfl
  have hempty : ("" : String).data = [] := rfl
  cases htv : v.timeout_secs with
  | none =>
    simp only [configTranscript, htv, String.data_append]
    rw [foldl_append_comma (Verify.sortStrings v.cache_paths) ""]
    rw [foldl_meta_comma
      (fun k => renderPattern ((Verify.alookup k v.metadata).getD (MetadataPattern.Simple "")))
      (Verify.sortStrings (v.metadata.map Prod.fst)) ""]
    simp [hnl, hempty, List.append_assoc]
  | some t =>
    have h : (Verify.natDecimal t).data = Verify.natDigits t := rfl
    simp only [configTranscript, htv, String.data_append]
    rw [foldl_append_comma (Verify.sortStrings v.cache_paths) ""]
    rw [foldl_meta_comma
      (fun k => renderPattern ((Verify.alookup k v.metadata).getD (MetadataPattern.Simple "")))
      (Verify.sortStrings (v.metadata.map Prod.fst)) ""]
    simp [hnl, hempty, h, List.append_assoc]

/-- C8 witness: the round-trip theorem on a two-entry sorted map of hex
hashes. -/
theorem C8_witness :
    Verify.Trailer.format_trailer_value
        (Verify.Trailer.parse_trailer_value "build:12345678,lint:fedcba09") =
      some "build:12345678,lint:fedcba09" :=
  C8_trailer_roundtrip
    [("build", "1234567890abcdef"), ("lint", "fedcba0987654321")]
    "build:12345678,lint:fedcba09"
    (by decide) (by decide) (by decide) (by decide)

end Verify.Claims

namespace Verify.Claims

open Verify.Config Verify.Cache Verify.Metadata Verify.Hasher

/-- C1 counterexample: the config.rs snapshot requires `command`, so the entry
`{name: test, cache_paths: []}` — which the claim says loads as an aggregate
check — fails both untagged variants and the whole config fails to load. -/
theorem C1_counterexample :
    parse_item
        { name := some "test", path := none, command := none, cache_paths := some [],
          depends_on := none, timeout_secs := none, metadata := none, per_file := none } =
      none ∧
    parse_config
        [{ name := some "test", path := none, command := none, cache_paths := some [],
           depends_on := none, timeout_secs := none, metadata := none, per_file := none }] =
      none := by
  exact ⟨rfl, rfl⟩

/-- C1 (amended): an entry that declares a name but no command is never
accepted as a check: it parses as a subproject when it declares a path and
fails to parse otherwise, so declared aggregates do not exist at the
config.rs revision. -/
theorem C1_missing_command_never_a_check (e : RawEntry) (n : String)
    (hn : e.name = some n) (hc : e.command = none) :
    parse_item e =
      match e.path with
      | some p => some (VerificationItem.subproject ⟨n, p⟩)
      | none => none := by
  rw [parse_item, hn]
  cases hp : e.path with
  | some p => rfl
  | none => rw [hc]

/-- C1 witness: the amended theorem applied to the counterexample entry. -/
theorem C1_witness :
    parse_item
        { name := some "agg", path := none, command := none, cache_paths := none,
          depends_on := none, timeout_secs := none, metadata := none, per_file := none } =
      none :=
  C1_missing_command_never_a_check
    { name := some "agg", path := none, command := none, cache_paths := none,
      depends_on := none, timeout_secs := none, metadata := none, per_file := none }
    "agg" rfl rfl

/-- C2 counterexample: an entry whose last run failed (`content_hash` absent,
so "never succeeded") under config hash `a` is queried with config hash `b`:
the code answers `ConfigChanged`, while the claim's cascade (never-succeeded
first) answers `NeverRun`. -/
theorem C2_counterexample :
    CacheState.check_staleness
        ⟨4, [("t", ⟨some "a", none, [], []⟩)]⟩ "t" "h" "b" =
      VerificationStatus.Unverified UnverifiedReason.ConfigChanged ∧
    check_staleness_claimed
        ⟨4, [("t", ⟨some "a", none, [], []⟩)]⟩ "t" "h" "b" =
      VerificationStatus.Unverified UnverifiedReason.NeverRun := by
  exact ⟨by decide, by decide⟩

/-- C2 (amended): `check_staleness` is exactly the cascade with the config
comparison before the never-succeeded test: `NeverRun` when the entry is
missing or carries no config hash, else `ConfigChanged` on config-hash
mismatch, else `NeverRun` when no content hash is stored, else
`FilesChanged []` on content mismatch, else `Verified`. -/
theorem C2_check_staleness_cascade (c : CacheState) (n ch cfg : String) :
    c.check_staleness n ch cfg = check_staleness_amended c n ch cfg := by
  rw [CacheState.check_staleness, check_staleness_amended]
  cases he : alookup n c.checks with
  | none => rfl
  | some e =>
    cases hcfg : e.config_hash with
    | none => simp [hcfg]
    | some s =>
      by_cases hs : s = cfg
      · subst hs
        cases hct : e.content_hash with
        | none => simp [hcfg, hct]
        | some t =>
          by_cases ht : t = ch
          · subst ht
            simp [hcfg, hct]
          · simp [hcfg, hct, ht]
      · simp [hcfg, hs]

/-- C4 (confirmed): the decision engine's status is the claim's rule cascade:
first stale dependency in declaration order (unknown dependencies stale),
then aggregates are `Verified`, then empty `cache_paths` is `Untracked`,
otherwise the lock store's `check_staleness` with the empty `FilesChanged`
list enriched via `find_changed_files` between cached and current file
hashes. -/
theorem C4_compute_status_cascade (check : Runner.Verification) (hr : HashResult)
    (cache : CacheState) (deps : List (String × Bool)) :
    Runner.compute_status check hr cache deps = compute_status_claimed check hr cache deps := by
  rw [Runner.compute_status, compute_status_claimed]
  cases check.depends_on.find? (fun dep => (alookup dep deps).getD true) with
  | some dep => rfl
  | none =>
    by_cases hagg : check.command.isNone
    · simp [hagg]
    · by_cases htr : check.cache_paths.isEmpty
      · simp [hagg, htr]
      · simp only [hagg, htr, if_false]
        cases hs : cache.check_staleness check.name hr.combined_hash check.config_hash with
        | Verified => rfl
        | Untracked => rfl
        | Unverified r =>
          cases r with
          | FilesChanged l =>
            obtain ⟨e, he⟩ := Verify.check_staleness_filesChanged_entry hs
            simp [CacheState.get, he]
          | DependencyUnverified d => rfl
          | ConfigChanged => rfl
          | NeverRun => rfl

/-- C5 (confirmed): `update` with `success = false` stores an entry whose
config hash is the supplied one, whose content hash and metadata are cleared,
and a subsequent `check_staleness` under the same config hash answers
`Unverified NeverRun` — the failed run is indistinguishable from a never-run
check. -/
theorem C5_update_failure_resets (c : CacheState) (n cfg : String)
    (content : Option String) (fh : List (String × String))
    (md : List (String × MetadataValue)) (pf : Bool) (cur : String) :
    (∃ e, (c.update n false cfg content fh md pf).get n = some e ∧
        e.config_hash = some cfg ∧ e.content_hash = none ∧ e.metadata = []) ∧
    (c.update n false cfg content fh md pf).check_staleness n cur cfg =
      VerificationStatus.Unverified UnverifiedReason.NeverRun := by
  have hl : alookup n (c.update n false cfg content fh md pf).checks =
      some { config_hash := some cfg, content_hash := none,
             file_hashes :=
               if pf then ((alookup n c.checks).map Verify.Cache.CheckCache.file_hashes).getD []
               else [],
             metadata := [] } := by
    rw [CacheState.update]
    simp only [Bool.false_eq_true, if_false]
    exact Verify.alookup_btInsert_self n _ c.checks
  constructor
  · exact ⟨_, hl, rfl, rfl, rfl⟩
  · rw [CacheState.check_staleness, hl]
    simp

/-- C9 counterexample: the input `"aaaaaaaé"` has 8 characters (so the claim
promises its first 8 characters back) but byte offset 8 falls inside the
two-byte `é`, and the byte slice panics instead of returning. -/
theorem C9_counterexample :
    Verify.Trailer.truncate_hash "aaaaaaaé" = none ∧
      ("aaaaaaaé" : String).data.length = 8 := by
  exact ⟨by decide, by decide⟩

/-- C9 (amended): `truncate_hash` slices the first `min 8 (byte length)`
bytes.  On ASCII inputs it is total and returns the first 8 characters (the
whole string when shorter); any input of at most 8 bytes is returned whole;
but offset 8 inside a multi-byte character panics. -/
theorem C9_truncate_hash_ascii_total (s : String) :
    ((∀ c ∈ s.data, c.utf8Size = 1) →
      Verify.Trailer.truncate_hash s = some (String.mk (s.data.take 8))) ∧
    (s.utf8ByteSize ≤ 8 → Verify.Trailer.truncate_hash s = some s) :=
  ⟨fun h => Verify.truncate_hash_ascii h, fun h => Verify.truncate_hash_of_small h⟩

/-- C9 witness: the amended theorem at a 12-character hex string. -/
theorem C9_witness :
    Verify.Trailer.truncate_hash "a1b2c3d4e5f6" = some "a1b2c3d4" :=
  ((C9_truncate_hash_ascii_total "a1b2c3d4e5f6").1 (by decide)).trans (by decide)

/-- C6 (confirmed): `config_hash` is invariant under reordering of
`cache_paths`, under the metadata map's iteration order (keys unique, as in a
`HashMap`), and under arbitrary changes to `name` and `depends_on`. -/
theorem C6_config_hash_invariant (v₁ v₂ : Verification)
    (hcmd : v₁.command = v₂.command)
    (hpaths : v₁.cache_paths.Perm v₂.cache_paths)
    (ht : v₁.timeout_secs = v₂.timeout_secs)
    (hpf : v₁.per_file = v₂.per_file)
    (hmeta : v₁.metadata.Perm v₂.metadata)
    (hnk : (v₁.metadata.map Prod.fst).Nodup) :
    v₁.config_hash = v₂.config_hash := by
  have hfun :
      (fun (acc : String) k =>
          acc ++ k ++ "=" ++
            renderPattern ((Verify.alookup k v₁.metadata).getD (MetadataPattern.Simple "")) ++
            ",") =
        (fun (acc : String) k =>
          acc ++ k ++ "=" ++
            renderPattern ((Verify.alookup k v₂.metadata).getD (MetadataPattern.Simple "")) ++
            ",") := by
    funext acc k
    rw [Verify.alookup_congr_perm hmeta hnk k]
  simp only [Verification.config_hash, configTranscript]
  rw [hcmd, ht, hpf, Verify.sortStrings_congr hpaths,
    Verify.sortStrings_congr (hmeta.map Prod.fst), hfun]

/-- C6 witness: the theorem at two definitions differing only in
`cache_paths` order, metadata order, `name` and `depends_on`. -/
theorem C6_witness :
    Verification.config_hash
        { name := "a", command := "npm test", cache_paths := ["b.ts", "a.ts"],
          depends_on := [], timeout_secs := some 3,
          metadata := [("k1", MetadataPattern.Simple "p1"),
                       ("k2", MetadataPattern.WithReplacement "p" "r")],
          per_file := false } =
      Verification.config_hash
        { name := "z", command := "npm test", cache_paths := ["a.ts", "b.ts"],
          depends_on := ["x"], timeout_secs := some 3,
          metadata := [("k2", MetadataPattern.WithReplacement "p" "r"),
                       ("k1", MetadataPattern.Simple "p1")],
          per_file := false } :=
  C6_config_hash_invariant _ _ rfl (by decide) rfl rfl (by decide) (by decide)

end Verify.Claims

namespace Verify.Metadata

/-- A key outside the pattern list is untouched by the extraction fold. -/
theorem extract_fold_not_mem (compile : RegexEngine) (output : String) (k : String) :
    ∀ (ps : List (String × Verify.Config.MetadataPattern))
      (acc : List (String × MetadataValue)), k ∉ ps.map Prod.fst →
      Verify.alookup k (ps.foldl
        (fun result kp =>
          match apply_pattern compile output kp.2 with
          | some value => Verify.btInsert kp.1 (parse_value value) result
          | none => result) acc) = Verify.alookup k acc
  | [], _, _ => rfl
  | (k₀, p₀) :: rest, acc, hk => by
    simp only [List.map_cons, List.mem_cons, not_or] at hk
    rw [List.foldl_cons,
      extract_fold_not_mem compile output k rest _ hk.2]
    cases apply_pattern compile output p₀ with
    | none => rfl
    | some v =>
      simp only
      exact Verify.alookup_btInsert_ne k₀ _ k hk.1 acc

/-- The extraction fold's binding for a key present in the pattern list is
determined by that key's own pattern alone. -/
theorem extract_fold_mem (compile : RegexEngine) (output : String) (k : String)
    (pat : Verify.Config.MetadataPattern) :
    ∀ (ps : List (String × Verify.Config.MetadataPattern))
      (acc : List (String × MetadataValue)),
      (ps.map Prod.fst).Nodup → (k, pat) ∈ ps →
      Verify.alookup k (ps.foldl
        (fun result kp =>
          match apply_pattern compile output kp.2 with
          | some value => Verify.btInsert kp.1 (parse_value value) result
          | none => result) acc) =
        match apply_pattern compile output pat with
        | some value => some (parse_value value)
        | none => Verify.alookup k acc
  | [], _, _, hm => by simp at hm
  | (k₀, p₀) :: rest, acc, hn, hm => by
    simp only [List.map_cons, List.nodup_cons] at hn
    rcases List.mem_cons.mp hm with he | hrest
    · rw [Prod.mk.injEq] at he
      obtain ⟨hek, hep⟩ := he
      subst hek
      subst hep
      rw [List.foldl_cons, extract_fold_not_mem compile output k rest _ hn.1]
      cases apply_pattern compile output pat with
      | none => rfl
      | some v =>
        simp only
        exact Verify.alookup_btInsert_self k _ acc
    · have hk₀ : k₀ ≠ k := by
        intro he
        subst he
        exact hn.1 (List.mem_map.mpr ⟨(k₀, pat), hrest, rfl⟩)
      rw [List.foldl_cons, extract_fold_mem compile output k pat rest _ hn.2 hrest]
      cases apply_pattern compile output pat with
      | none =>
        cases apply_pattern compile output p₀ with
        | none => rfl
        | some v =>
          simp only
          exact Verify.alookup_btInsert_ne k₀ _ k (fun he => hk₀ he.symm) acc
      | some v => rfl

end Verify.Metadata

namespace Verify.Claims

open Verify.Config Verify.Cache Verify.Metadata Verify.Hasher

/-- C10 (confirmed): `extract_metadata` is total and silently drops a key
whenever its pattern fails to compile, matches nothing in the output, or (for
a simple pattern) the last match has no capture group 1 — for every regex
engine, output and pattern map. -/
theorem C10_extract_metadata_silent (compile : RegexEngine) (output : String)
    (patterns : List (String × MetadataPattern)) (k : String) (pat : MetadataPattern)
    (hnod : (patterns.map Prod.fst).Nodup) (hmem : (k, pat) ∈ patterns)
    (hfail :
      compile (patRegex pat) = none ∨
      (∀ re, compile (patRegex pat) = some re → (re.capturesAll output).getLast? = none) ∨
      (∃ p, pat = MetadataPattern.Simple p ∧
        ∀ re caps, compile p = some re → (re.capturesAll output).getLast? = some caps →
          caps.get 1 = none)) :
    Verify.alookup k (extract_metadata compile output patterns) = none := by
  have happ : apply_pattern compile output pat = none := by
    rcases hfail with hc | hnm | ⟨p, hp, hg⟩
    · cases pat with
      | Simple p =>
        rw [patRegex] at hc
        rw [apply_pattern, hc]
        rfl
      | WithReplacement p r =>
        rw [patRegex] at hc
        rw [apply_pattern, hc]
        rfl
    · cases pat with
      | Simple p =>
        rw [patRegex] at hnm
        rw [apply_pattern]
        cases hre : compile p with
        | none => rfl
        | some re => rw [Option.some_bind, hnm re hre]; rfl
      | WithReplacement p r =>
        rw [patRegex] at hnm
        rw [apply_pattern]
        cases hre : compile p with
        | none => rfl
        | some re => rw [Option.some_bind, hnm re hre]; rfl
    · subst hp
      rw [apply_pattern]
      cases hre : compile p with
      | none => rfl
      | some re =>
        rw [Option.some_bind]
        cases hlast : (re.capturesAll output).getLast? with
        | none => rfl
        | some caps => rw [Option.some_bind]; exact hg re caps hre hlast
  rw [extract_metadata, extract_fold_mem compile output k pat patterns [] hnod hmem, happ]
  rfl

/-- C10 witness: the theorem with an engine that rejects every pattern. -/
theorem C10_witness :
    Verify.alookup "cov"
        (extract_metadata (fun _ => none) "out" [("cov", MetadataPattern.Simple "x")]) =
      none :=
  C10_extract_metadata_silent (fun _ => none) "out" [("cov", MetadataPattern.Simple "x")]
    "cov" (MetadataPattern.Simple "x") (by decide) (by simp) (Or.inl rfl)

/-- One `run_sync` iteration leaves every cache binding unchanged except,
possibly, the visited name's, which it can only set to the seeded verified
entry, and only when the check is a tracked non-aggregate whose expected
truncated hash equals the trailer entry. -/
theorem syncStep_checks {config : Runner.Config} {tree : List String → HashResult}
    {trailer : List (String × String)} {st st₁ : CacheState × List String} {w : String}
    (h : Runner.syncStep config tree trailer st w = some st₁) (n : String) :
    Verify.alookup n st₁.1.checks = Verify.alookup n st.1.checks ∨
      (n = w ∧ ∃ check, config.get w = some check ∧ check.command ≠ none ∧
        check.cache_paths ≠ [] ∧
        Verify.Trailer.truncate_hash
            (Verify.Trailer.compute_combined_hash check.config_hash
              (tree check.cache_paths).combined_hash) =
          Verify.alookup w trailer ∧
        Verify.alookup n st₁.1.checks = some (syncSeedEntry check tree)) := by
  rw [Runner.syncStep] at h
  cases hg : config.get w with
  | none =>
    simp only [hg, Option.some.injEq] at h
    subst h
    exact Or.inl rfl
  | some check =>
    simp only [hg] at h
    cases hc : check.command with
    | none =>
      simp only [hc] at h
      by_cases hd : check.depends_on.all (fun dep => st.2.contains dep)
      · rw [if_pos hd, Option.some.injEq] at h
        subst h
        exact Or.inl rfl
      · rw [if_neg hd, Option.some.injEq] at h
        subst h
        exact Or.inl rfl
    | some cmd =>
      simp only [hc] at h
      by_cases he : check.cache_paths.isEmpty
      · rw [if_pos he, Option.some.injEq] at h
        subst h
        exact Or.inl rfl
      · rw [if_neg he] at h
        cases htr : Verify.Trailer.truncate_hash
            (Verify.Trailer.compute_combined_hash check.config_hash
              (tree check.cache_paths).combined_hash) with
        | none => rw [htr] at h; simp at h
        | some t =>
          rw [htr, Option.map_some', Option.some.injEq] at h
          by_cases hm : Verify.alookup w trailer = some t
          · rw [if_pos hm] at h
            subst h
            by_cases hn : n = w
            · subst hn
              refine Or.inr ⟨rfl, check, rfl, by simp [hc], ?_, htr.trans hm.symm, ?_⟩
              · intro hnil
                rw [hnil] at he
                exact he rfl
              · rw [CacheState.update]
                simp only [if_pos rfl]
                refine (Verify.alookup_btInsert_self n _ st.1.checks).trans ?_
                rw [syncSeedEntry]
                cases hpf : check.per_file <;> simp [hpf]
            · have hn' : n ≠ w := hn
              refine Or.inl ?_
              rw [CacheState.update]
              simp only [if_pos rfl]
              exact Verify.alookup_btInsert_ne w _ n hn' st.1.checks
          · rw [if_neg hm] at h
            subst h
            exact Or.inl rfl

/-- The wave loop of `run_sync`, folded over any name sequence, only
rewrites bindings of names it visits and matches, and only to their seeded
verified entries. -/
theorem sync_fold_inv {config : Runner.Config} {tree : List String → HashResult}
    {trailer : List (String × String)} :
    ∀ (ws : List String) (st res : CacheState × List String),
      List.foldlM (Runner.syncStep config tree trailer) st ws = some res →
      ∀ n, Verify.alookup n res.1.checks = Verify.alookup n st.1.checks ∨
        (n ∈ ws ∧ ∃ check, config.get n = some check ∧ check.command ≠ none ∧
          check.cache_paths ≠ [] ∧
          Verify.Trailer.truncate_hash
              (Verify.Trailer.compute_combined_hash check.config_hash
                (tree check.cache_paths).combined_hash) =
            Verify.alookup n trailer ∧
          Verify.alookup n res.1.checks = some (syncSeedEntry check tree))
  | [], st, res, h, n => by
    rw [List.foldlM_nil] at h
    have h' : st = res := Option.some.inj h
    subst h'
    exact Or.inl rfl
  | w :: ws, st, res, h, n => by
    rw [List.foldlM_cons] at h
    cases hstep : Runner.syncStep config tree trailer st w with
    | none => rw [hstep] at h; simp at h
    | some st₁ =>
      rw [hstep] at h
      have h' : List.foldlM (Runner.syncStep config tree trailer) st₁ ws = some res := h
      rcases sync_fold_inv ws st₁ res h' n with hsame | ⟨hmem, hrest⟩
      · rcases syncStep_checks hstep n with hsame₁ | ⟨hn, check, hget, hcmd, hpaths, hhash, hseed⟩
        · exact Or.inl (hsame.trans hsame₁)
        · subst hn
          exact Or.inr ⟨List.mem_cons_self _ _, check, hget, hcmd, hpaths, hhash,
            hsame.trans hseed⟩
      · exact Or.inr ⟨List.mem_cons_of_mem _ hmem, hrest⟩

/-- C7 (confirmed): `run_sync` is purely additive — every cache binding is
either left exactly as it was, or belongs to a visited, tracked,
non-aggregate check whose current expected truncated hash equals the trailer
entry, in which case it is the seeded verified entry (current config and
content hashes, per-file hashes only in per-file mode, empty metadata). -/
theorem C7_sync_additive (config : Runner.Config) (cache : CacheState)
    (tree : List String → HashResult) (trailer : List (String × String))
    (waveNames : List String) (c' : CacheState)
    (h : Runner.run_sync config cache tree trailer waveNames = some c') (n : String) :
    Verify.alookup n c'.checks = Verify.alookup n cache.checks ∨
      (syncMatchCond config tree trailer waveNames n ∧
        ∀ check, config.get n = some check →
          Verify.alookup n c'.checks = some (syncSeedEntry check tree)) := by
  rw [Runner.run_sync] at h
  cases hf : List.foldlM (Runner.syncStep config tree trailer) (cache, []) waveNames with
  | none => rw [hf] at h; simp at h
  | some res =>
    rw [hf, Option.map_some', Option.some.injEq] at h
    subst h
    rcases sync_fold_inv waveNames (cache, []) res hf n with hsame | hright
    · exact Or.inl hsame
    · obtain ⟨hmem, check, hget, hcmd, hpaths, hhash, hseed⟩ := hright
      refine Or.inr ⟨⟨hmem, check, hget, hcmd, hpaths, hhash⟩, ?_⟩
      intro check' hget'
      rw [hget, Option.some.injEq] at hget'
      subst hget'
      exact hseed

/-- C7 witness: a one-check config whose expected truncated hash matches the
trailer; `run_sync` seeds exactly that entry starting from an empty cache. -/
theorem C7_witness :
    Verify.alookup "t"
        (CacheState.mk 4
          [("t",
            { config_hash := some "b3:command:c\ncache_paths:src,\ntimeout:\nper_file:false\nmetadata:"
              content_hash := some "CH", file_hashes := [], metadata := [] })]).checks =
      Verify.alookup "t" (CacheState.mk 4 []).checks ∨
    (syncMatchCond
        ⟨[Runner.Item.verification
          { name := "t", command := some "c", cache_paths := ["src"], depends_on := [],
            timeout_secs := none, metadata := [], per_file := false }]⟩
        (fun _ => ⟨"CH", []⟩) [("t", "b3:b3:co")] ["t"] "t" ∧
      ∀ check,
        Runner.Config.get
            ⟨[Runner.Item.verification
              { name := "t", command := some "c", cache_paths := ["src"], depends_on := [],
                timeout_secs := none, metadata := [], per_file := false }]⟩ "t" =
          some check →
        Verify.alookup "t"
            (CacheState.mk 4
              [("t",
                { config_hash := some "b3:command:c\ncache_paths:src,\ntimeout:\nper_file:false\nmetadata:"
                  content_hash := some "CH", file_hashes := [], metadata := [] })]).checks =
          some (syncSeedEntry check (fun _ => ⟨"CH", []⟩))) :=
  C7_sync_additive
    ⟨[Runner.Item.verification
      { name := "t", command := some "c", cache_paths := ["src"], depends_on := [],
        timeout_secs := none, metadata := [], per_file := false }]⟩
    (CacheState.mk 4 []) (fun _ => ⟨"CH", []⟩) [("t", "b3:b3:co")] ["t"]
    (CacheState.mk 4
      [("t",
        { config_hash := some "b3:command:c\ncache_paths:src,\ntimeout:\nper_file:false\nmetadata:"
          content_hash := some "CH", file_hashes := [], metadata := [] })])
    (by decide) "t"

end Verify.Claims

namespace Verify.Claims

open Verify.Config Verify.Cache Verify.Metadata Verify.Hasher

theorem renderPattern_data_with (q r : String) :
    (renderPattern (MetadataPattern.WithReplacement q r)).data = q.data ++ '|' :: r.data := by
  have hbar : ("|" : String).data = ['|'] := rfl
  simp [renderPattern, String.data_append, hbar]

/-- Under the delimiter discipline, a rendered pattern avoids the
transcript's newline and comma separators. -/
theorem renderPattern_safe_chars {p : MetadataPattern} (h : patternSafe p) :
    ∀ c ∈ (renderPattern p).data, c ≠ '\n' ∧ c ≠ ',' := by
  cases p with
  | Simple s =>
    intro c hc
    exact ⟨(h c hc).1, (h c hc).2.1⟩
  | WithReplacement q r =>
    intro c hc
    rw [renderPattern_data_with] at hc
    rcases List.mem_append.mp hc with hc1 | hc2
    · exact ⟨(h.1 c hc1).1, (h.1 c hc1).2.1⟩
    · rcases List.mem_cons.mp hc2 with he | hc3
      · subst he
        exact ⟨by decide, by decide⟩
      · exact ⟨(h.2 c hc3).1, (h.2 c hc3).2⟩

/-- Under the delimiter discipline, rendering a metadata pattern is
injective: the pipe separator distinguishes the two variants and splits a
replacement pattern unambiguously. -/
theorem renderPattern_inj {p₁ p₂ : MetadataPattern}
    (h₁ : patternSafe p₁) (h₂ : patternSafe p₂)
    (h : renderPattern p₁ = renderPattern p₂) : p₁ = p₂ := by
  have hd := congrArg String.data h
  cases p₁ with
  | Simple s₁ =>
    cases p₂ with
    | Simple s₂ =>
      rw [renderPattern, renderPattern] at h
      rw [h]
    | WithReplacement q₂ r₂ =>
      rw [renderPattern_data_with] at hd
      have hbar : '|' ∈ (renderPattern (MetadataPattern.Simple s₁)).data := by
        rw [hd]
        exact List.mem_append_right _ (List.mem_cons_self _ _)
      exact absurd rfl ((h₁ '|' hbar).2.2)
  | WithReplacement q₁ r₁ =>
    cases p₂ with
    | Simple s₂ =>
      rw [renderPattern_data_with] at hd
      have hbar : '|' ∈ (renderPattern (MetadataPattern.Simple s₂)).data := by
        rw [← hd]
        exact List.mem_append_right _ (List.mem_cons_self _ _)
      exact absurd rfl ((h₂ '|' hbar).2.2)
    | WithReplacement q₂ r₂ =>
      rw [renderPattern_data_with, renderPattern_data_with] at hd
      obtain ⟨hq, hr⟩ := Verify.append_sep_inj
        (fun c hc => (h₁.1 c hc).2.2) (fun c hc => (h₂.1 c hc).2.2) hd
      rw [String.ext hq, String.ext hr]

/-- Equal lists of rendered `key = value` entries with `=`-free keys have
equal key lists and pointwise-equal renderings. -/
theorem map_entry_inj :
    ∀ (ks₁ ks₂ : List String) (R₁ R₂ : String → String),
      (∀ k ∈ ks₁, ∀ c ∈ k.data, c ≠ '=') → (∀ k ∈ ks₂, ∀ c ∈ k.data, c ≠ '=') →
      ks₁.map (fun k => k.data ++ '=' :: (R₁ k).data) =
        ks₂.map (fun k => k.data ++ '=' :: (R₂ k).data) →
      ks₁ = ks₂ ∧ ∀ k ∈ ks₁, R₁ k = R₂ k
  | [], [], _, _, _, _, _ => ⟨rfl, by simp⟩
  | [], k :: ks, _, _, _, _, h => by simp at h
  | k :: ks, [], _, _, _, _, h => by simp at h
  | k₁ :: ks₁, k₂ :: ks₂, R₁, R₂, h₁, h₂, h => by
    simp only [List.map_cons, List.cons.injEq] at h
    obtain ⟨hk, hR⟩ := Verify.append_sep_inj
      (h₁ k₁ (List.mem_cons_self _ _)) (h₂ k₂ (List.mem_cons_self _ _)) h.1
    obtain ⟨hks, hRs⟩ := map_entry_inj ks₁ ks₂ R₁ R₂
      (fun k hk' => h₁ k (List.mem_cons_of_mem _ hk'))
      (fun k hk' => h₂ k (List.mem_cons_of_mem _ hk')) h.2
    refine ⟨by rw [String.ext hk, hks], ?_⟩
    intro k hkm
    rcases List.mem_cons.mp hkm with he | hm
    · subst he
      have hk₂ : k₂ = k := (String.ext hk).symm
      rw [← hk₂] at hR ⊢
      exact String.ext hR
    · exact hRs k hm

end Verify.Claims

namespace Verify.Claims

open Verify.Config Verify.Cache Verify.Metadata Verify.Hasher

/-- C3 counterexample: moving the comma between joining and the path itself
feeds identical bytes to the hasher, so `{"a","b"}` and `{"a,b"}` — different
path sets — share a `config_hash`. -/
theorem C3_counterexample :
    Verification.config_hash
        { name := "t", command := "cmd", cache_paths := ["a", "b"], depends_on := [],
          timeout_secs := none, metadata := [], per_file := false } =
      Verification.config_hash
        { name := "t", command := "cmd", cache_paths := ["a,b"], depends_on := [],
          timeout_secs := none, metadata := [], per_file := false } ∧
    ("a" : String) ∈ (["a", "b"] : List String) ∧
    ("a" : String) ∉ (["a,b"] : List String) := by
  exact ⟨by decide, by decide, by decide⟩

/-- C3 (amended): under the delimiter discipline — no newline in the command,
no newline or comma in any cache path, and metadata keys and patterns free of
the transcript's separators — `config_hash` discriminates every field the
claim lists: equal hashes force equal commands, permuted cache-path lists
(hence equal sets), equal timeouts, equal per-file flags, and pointwise equal
metadata patterns.  A path containing a comma (or a pattern containing a
pipe, or a component containing a newline) can collide. -/
theorem C3_config_hash_discriminates (v₁ v₂ : Verification)
    (hc₁ : ∀ c ∈ v₁.command.data, c ≠ '\n')
    (hc₂ : ∀ c ∈ v₂.command.data, c ≠ '\n')
    (hp₁ : ∀ p ∈ v₁.cache_paths, ∀ c ∈ p.data, c ≠ '\n' ∧ c ≠ ',')
    (hp₂ : ∀ p ∈ v₂.cache_paths, ∀ c ∈ p.data, c ≠ '\n' ∧ c ≠ ',')
    (hm₁ : ∀ kp ∈ v₁.metadata,
      (∀ c ∈ (kp : String × MetadataPattern).1.data, c ≠ '\n' ∧ c ≠ ',' ∧ c ≠ '=') ∧
        patternSafe kp.2)
    (hm₂ : ∀ kp ∈ v₂.metadata,
      (∀ c ∈ (kp : String × MetadataPattern).1.data, c ≠ '\n' ∧ c ≠ ',' ∧ c ≠ '=') ∧
        patternSafe kp.2)
    (h : v₁.config_hash = v₂.config_hash) :
    v₁.command = v₂.command ∧ v₁.cache_paths.Perm v₂.cache_paths ∧
    v₁.timeout_secs = v₂.timeout_secs ∧ v₁.per_file = v₂.per_file ∧
    ∀ k, Verify.alookup k v₁.metadata = Verify.alookup k v₂.metadata := by
  rw [Verification.config_hash, Verification.config_hash] at h
  have htr := Verify.blake3String_inj h
  have hd := congrArg String.data htr
  rw [configTranscript_data, configTranscript_data] at hd
  -- literal segments carry no newline
  have hL1 : ∀ c ∈ ("command:" : String).data, c ≠ '\n' := by
    intro c hc; fin_cases hc <;> decide
  have hL2 : ∀ c ∈ ("cache_paths:" : String).data, c ≠ '\n' := by
    intro c hc; fin_cases hc <;> decide
  have hL3 : ∀ c ∈ ("timeout:" : String).data, c ≠ '\n' := by
    intro c hc; fin_cases hc <;> decide
  have hL4 : ∀ c ∈ ("per_file:" : String).data, c ≠ '\n' := by
    intro c hc; fin_cases hc <;> decide
  -- line 1: the command
  obtain ⟨h1, hd⟩ := Verify.append_sep_inj
    (fun c hc => (List.mem_append.mp hc).elim (hL1 c) (hc₁ c))
    (fun c hc => (List.mem_append.mp hc).elim (hL1 c) (hc₂ c)) hd
  have hcmd : v₁.command = v₂.command := String.ext (List.append_cancel_left h1)
  -- line 2: the sorted cache paths
  have hpathsChars : ∀ (v : Verification),
      (∀ p ∈ v.cache_paths, ∀ c ∈ p.data, c ≠ '\n' ∧ c ≠ ',') →
      ∀ c ∈ (((Verify.sortStrings v.cache_paths).map String.data).map (· ++ [','])).flatten,
        c ≠ '\n' := by
    intro v hp c hc
    obtain ⟨piece, hpiece, hcp⟩ := List.mem_flatten.mp hc
    obtain ⟨pd, hpd, hpieceEq⟩ := List.mem_map.mp hpiece
    obtain ⟨p, hpmem, hpdEq⟩ := List.mem_map.mp hpd
    rw [← hpieceEq] at hcp
    have hpmem' : p ∈ v.cache_paths := (List.perm_insertionSort _ _).mem_iff.mp hpmem
    rcases List.mem_append.mp hcp with hcl | hcr
    · rw [← hpdEq] at hcl
      exact (hp p hpmem' c hcl).1
    · simp only [List.mem_singleton] at hcr
      subst hcr
      decide
  obtain ⟨h2, hd⟩ := Verify.append_sep_inj
    (fun c hc => (List.mem_append.mp hc).elim (hL2 c) (hpathsChars v₁ hp₁ c))
    (fun c hc => (List.mem_append.mp hc).elim (hL2 c) (hpathsChars v₂ hp₂ c)) hd
  have h2' := List.append_cancel_left h2
  have hmapEq := Verify.joinTerm_inj ','
    (fun pd hpd c hc => by
      obtain ⟨p, hpmem, hpdEq⟩ := List.mem_map.mp hpd
      rw [← hpdEq] at hc
      exact (hp₁ p ((List.perm_insertionSort _ _).mem_iff.mp hpmem) c hc).2)
    (fun pd hpd c hc => by
      obtain ⟨p, hpmem, hpdEq⟩ := List.mem_map.mp hpd
      rw [← hpdEq] at hc
      exact (hp₂ p ((List.perm_insertionSort _ _).mem_iff.mp hpmem) c hc).2)
    h2'
  have hsortEq : Verify.sortStrings v₁.cache_paths = Verify.sortStrings v₂.cache_paths :=
    List.map_injective_iff.mpr (fun a b hab => String.ext hab) hmapEq
  have hsp : ∀ l : List String, (Verify.sortStrings l).Perm l := fun l =>
    List.perm_insertionSort _ l
  have hperm : v₁.cache_paths.Perm v₂.cache_paths :=
    (hsp v₁.cache_paths).symm.trans (by rw [hsortEq]; exact hsp v₂.cache_paths)
  -- line 3: the timeout
  have htimeoutChars : ∀ (t : Option Nat),
      ∀ c ∈ (match t with
        | some t' => Verify.natDigits t'
        | none => ([] : List Char)), c ≠ '\n' := by
    intro t c hc
    cases t with
    | none => simp at hc
    | some t' => exact Verify.natDigits_no_newline t' c hc
  obtain ⟨h3, hd⟩ := Verify.append_sep_inj
    (fun c hc => (List.mem_append.mp hc).elim (hL3 c) (htimeoutChars v₁.timeout_secs c))
    (fun c hc => (List.mem_append.mp hc).elim (hL3 c) (htimeoutChars v₂.timeout_secs c)) hd
  have h3' := List.append_cancel_left h3
  have htimeout : v₁.timeout_secs = v₂.timeout_secs := by
    cases ht₁ : v₁.timeout_secs with
    | none =>
      cases ht₂ : v₂.timeout_secs with
      | none => rfl
      | some t₂ =>
        rw [ht₁, ht₂] at h3'
        exact absurd h3'.symm (Verify.natDigits_ne_nil t₂)
    | some t₁ =>
      cases ht₂ : v₂.timeout_secs with
      | none =>
        rw [ht₁, ht₂] at h3'
        exact absurd h3' (Verify.natDigits_ne_nil t₁)
      | some t₂ =>
        rw [ht₁, ht₂] at h3'
        rw [Verify.natDigits_inj h3']
  -- line 4: the per-file flag
  have hpfChars : ∀ (b : Bool),
      ∀ c ∈ (if b then ("true" : String) else "false").data, c ≠ '\n' := by
    intro b c hc
    cases b
    · fin_cases hc <;> decide
    · fin_cases hc <;> decide
  obtain ⟨h4, hd⟩ := Verify.append_sep_inj
    (fun c hc => (List.mem_append.mp hc).elim (hL4 c) (hpfChars v₁.per_file c))
    (fun c hc => (List.mem_append.mp hc).elim (hL4 c) (hpfChars v₂.per_file c)) hd
  have h4' := List.append_cancel_left h4
  have hpf : v₁.per_file = v₂.per_file := by
    rcases Bool.eq_false_or_eq_true v₁.per_file with hb₁ | hb₁ <;>
      rcases Bool.eq_false_or_eq_true v₂.per_file with hb₂ | hb₂ <;>
        rw [hb₁, hb₂] at h4' ⊢ <;>
          first
          | rfl
          | exact absurd h4' (by decide)
  -- line 5: the metadata entries
  have hmeta' := List.append_cancel_left hd
  have hkeyFacts : ∀ (v : Verification),
      (∀ kp ∈ v.metadata,
        (∀ c ∈ (kp : String × MetadataPattern).1.data, c ≠ '\n' ∧ c ≠ ',' ∧ c ≠ '=') ∧
          patternSafe kp.2) →
      ∀ k ∈ Verify.sortStrings (v.metadata.map Prod.fst),
        (∀ c ∈ k.data, c ≠ '\n' ∧ c ≠ ',' ∧ c ≠ '=') ∧
          patternSafe ((Verify.alookup k v.metadata).getD (MetadataPattern.Simple "")) := by
    intro v hm k hk
    have hk' : k ∈ v.metadata.map Prod.fst := (List.perm_insertionSort _ _).mem_iff.mp hk
    cases halook : Verify.alookup k v.metadata with
    | none => exact absurd hk' ((Verify.alookup_eq_none_iff k _).mp halook)
    | some p =>
      have hkp := hm (k, p) (Verify.alookup_mem_of_eq_some halook)
      exact ⟨hkp.1, by rw [Option.getD_some]; exact hkp.2⟩
  have hentriesEq := Verify.joinTerm_inj ','
    (fun e he c hc => by
      obtain ⟨k, hkmem, hkEq⟩ := List.mem_map.mp he
      rw [← hkEq] at hc
      have hkf := hkeyFacts v₁ hm₁ k hkmem
      rcases List.mem_append.mp hc with hc1 | hc2
      · exact (hkf.1 c hc1).2.1
      · rcases List.mem_cons.mp hc2 with hce | hc3
        · subst hce; decide
        · exact (renderPattern_safe_chars hkf.2 c hc3).2)
    (fun e he c hc => by
      obtain ⟨k, hkmem, hkEq⟩ := List.mem_map.mp he
      rw [← hkEq] at hc
      have hkf := hkeyFacts v₂ hm₂ k hkmem
      rcases List.mem_append.mp hc with hc1 | hc2
      · exact (hkf.1 c hc1).2.1
      · rcases List.mem_cons.mp hc2 with hce | hc3
        · subst hce; decide
        · exact (renderPattern_safe_chars hkf.2 c hc3).2)
    hmeta'
  obtain ⟨hksEq, hREq⟩ := map_entry_inj
    (Verify.sortStrings (v₁.metadata.map Prod.fst))
    (Verify.sortStrings (v₂.metadata.map Prod.fst))
    (fun k => renderPattern ((Verify.alookup k v₁.metadata).getD (MetadataPattern.Simple "")))
    (fun k => renderPattern ((Verify.alookup k v₂.metadata).getD (MetadataPattern.Simple "")))
    (fun k hk c hc => ((hkeyFacts v₁ hm₁ k hk).1 c hc).2.2)
    (fun k hk c hc => ((hkeyFacts v₂ hm₂ k hk).1 c hc).2.2)
    hentriesEq
  have hkeysPerm : (v₁.metadata.map Prod.fst).Perm (v₂.metadata.map Prod.fst) :=
    (hsp (v₁.metadata.map Prod.fst)).symm.trans
      (by rw [hksEq]; exact hsp (v₂.metadata.map Prod.fst))
  have hlook : ∀ k, Verify.alookup k v₁.metadata = Verify.alookup k v₂.metadata := by
    intro k
    by_cases hk : k ∈ v₁.metadata.map Prod.fst
    · have hk₂ : k ∈ v₂.metadata.map Prod.fst := hkeysPerm.mem_iff.mp hk
      cases halook₁ : Verify.alookup k v₁.metadata with
      | none => exact absurd hk ((Verify.alookup_eq_none_iff k _).mp halook₁)
      | some p₁ =>
        cases halook₂ : Verify.alookup k v₂.metadata with
        | none => exact absurd hk₂ ((Verify.alookup_eq_none_iff k _).mp halook₂)
        | some p₂ =>
          have hkSorted : k ∈ Verify.sortStrings (v₁.metadata.map Prod.fst) :=
            (List.perm_insertionSort _ _).mem_iff.mpr hk
          have hR := hREq k hkSorted
          simp only [halook₁, halook₂, Option.getD_some] at hR
          have hp12 : p₁ = p₂ := renderPattern_inj
            (hm₁ (k, p₁) (Verify.alookup_mem_of_eq_some halook₁)).2
            (hm₂ (k, p₂) (Verify.alookup_mem_of_eq_some halook₂)).2 hR
          rw [hp12]
    · have hk₂ : k ∉ v₂.metadata.map Prod.fst := fun hmem => hk (hkeysPerm.mem_iff.mpr hmem)
      rw [(Verify.alookup_eq_none_iff k _).mpr hk, (Verify.alookup_eq_none_iff k _).mpr hk₂]
  exact ⟨hcmd, hperm, htimeout, hpf, hlook⟩

/-- C3 witness: the amended theorem at two identical delimiter-free
definitions (hypotheses discharged concretely). -/
theorem C3_witness :
    ("npm test" : String) = "npm test" ∧
    (["a.ts", "b.ts"] : List String).Perm ["a.ts", "b.ts"] ∧
    (none : Option Nat) = none ∧ (false = false) ∧
    ∀ k, Verify.alookup k ([] : List (String × MetadataPattern)) =
      Verify.alookup k ([] : List (String × MetadataPattern)) :=
  C3_config_hash_discriminates
    { name := "t", command := "npm test", cache_paths := ["a.ts", "b.ts"], depends_on := [],
      timeout_secs := none, metadata := [], per_file := false }
    { name := "u", command := "npm test", cache_paths := ["a.ts", "b.ts"], depends_on := ["t"],
      timeout_secs := none, metadata := [], per_file := false }
    (by decide) (by decide) (by decide) (by decide) (by simp) (by simp) (by decide)

end Verify.Claims
